import Mathlib

/-!
# mrgsolve support routines (`src/mrgsolve.cpp`)

A shallow embedding of the matrix and table routines of `mrgsolve.cpp`:
`decorr`, `ZERO`, `SUPERMATRIX`, `EXPAND_EVENTS`, `MVGAUSS`, `find_position` and
`from_to`.

Modelling conventions.

* An `Rcpp::NumericMatrix` is a record of its two extents, its column-major
  buffer and its `dimnames` attribute.  `x(i,j)` addresses the buffer at
  `i + nrow * j` and nothing else is checked, exactly as in Rcpp; an access
  whose offset falls outside the buffer is undefined behaviour in C++ and is
  modelled as the failure `Err.outOfBounds`.
* `Rcpp::stop(msg)` is the failure `Err.stop msg`.
* The entries are `double` in the source.  No routine here inspects an entry, so
  the entry type is a parameter `α`; the operations the code applies to entries
  (`*`, `sqrt`, the zero that fills a fresh matrix) are taken from `α`.
* C `int` extents and counters are natural numbers (they are never negative and
  the routines do no arithmetic on them that could wrap for matrices R can hold);
  the R integer `idcol_[0]` is an `Int`.
* `for (i = 0; i < n; ++i) body` is `forLoop n body`; a loop over the elements of
  a list is `forEach`.
-/

namespace Mrgsolve

/-- Failures of the embedded routines. -/
inductive Err where
  /-- the routine called `Rcpp::stop` with this message -/
  | stop (msg : String)
  /-- an element access outside the buffer (undefined behaviour in the source) -/
  | outOfBounds
  /-- a conversion of an R object to the requested vector type failed -/
  | notCompatible
  deriving DecidableEq, Repr

deriving instance DecidableEq for Except

/-- The `dimnames` attribute of a matrix: absent, or a pair of optional label
vectors (row labels, column labels). -/
abbrev Dimnames := Option (Option (List String) × Option (List String))

/-- An `Rcpp::NumericMatrix`: extents, column-major buffer, `dimnames`. -/
structure NumericMatrix (α : Type) where
  nrow : Nat
  ncol : Nat
  data : List α
  dimnames : Dimnames := none
  deriving DecidableEq, Repr

namespace NumericMatrix

variable {α : Type}

/-- Offset of `(i,j)` in the column-major buffer (`Rcpp::Matrix::offset`). -/
def offset (m : NumericMatrix α) (i j : Nat) : Nat := i + m.nrow * j

/-- Read `m(i,j)`; `none` when the offset is outside the buffer. -/
def get? (m : NumericMatrix α) (i j : Nat) : Option α := m.data[m.offset i j]?

/-- Write `m(i,j) = v`; `none` when the offset is outside the buffer. -/
def set? (m : NumericMatrix α) (i j : Nat) (v : α) : Option (NumericMatrix α) :=
  if m.offset i j < m.data.length then
    some { m with data := m.data.set (m.offset i j) v }
  else none

/-- The constructor `Rcpp::NumericMatrix(nrow, ncol)`: zero filled, no attributes
besides `dim`. -/
def zeros [Zero α] (nrow ncol : Nat) : NumericMatrix α :=
  { nrow := nrow, ncol := ncol, data := List.replicate (nrow * ncol) 0, dimnames := none }

/-- The buffer has as many cells as the extents say (every R matrix does). -/
def WF (m : NumericMatrix α) : Prop := m.data.length = m.nrow * m.ncol

instance (m : NumericMatrix α) : Decidable m.WF := by unfold WF; infer_instance

/-- Label vectors, where present, are as long as the extent they label (every R
matrix satisfies this). -/
def LabelsOK (m : NumericMatrix α) : Prop :=
  match m.dimnames with
  | none => True
  | some (rn, cn) =>
    (match rn with | none => True | some l => l.length = m.nrow) ∧
    (match cn with | none => True | some l => l.length = m.ncol)

end NumericMatrix

/-- Turn a failed access (`none`) into the failure `e`. -/
def orFail {ε β : Type} (e : ε) : Option β → Except ε β
  | some b => .ok b
  | none => .error e

/-- The loop `for (i = 0; i < n; ++i) s = body i s`, stopping at the first failure. -/
def forLoop {ε σ : Type} : Nat → (Nat → σ → Except ε σ) → σ → Except ε σ
  | 0, _, s => .ok s
  | n + 1, body, s =>
    match forLoop n body s with
    | .ok t => body n t
    | .error e => .error e

/-- The loop over the elements of a list, in order, stopping at the first failure. -/
def forEach {β ε σ : Type} : List β → (β → σ → Except ε σ) → σ → Except ε σ
  | [], _, s => .ok s
  | x :: xs, body, s =>
    match body x s with
    | .ok t => forEach xs body t
    | .error e => .error e

/-! ## `decorr` -/

/-- The body of the inner loop of `decorr`:
`if (j != i) x(i,j) = x(i,j) * sqrt(x(i,i) * x(j,j));`.
A failure carries the matrix as it stands at that moment. -/
def decorr.cell {α : Type} [Mul α] (sqrt : α → α) (i j : Nat) (x : NumericMatrix α) :
    Except (Err × NumericMatrix α) (NumericMatrix α) :=
  if j ≠ i then
    match x.get? i j, x.get? i i, x.get? j j with
    | some xij, some xii, some xjj =>
      orFail (Err.outOfBounds, x) (x.set? i j (xij * sqrt (xii * xjj)))
    | _, _, _ => .error (Err.outOfBounds, x)
  else .ok x

/-- The rewrite of `decorr` as the specification words it, entry by entry and from
the original matrix only: a diagonal entry is kept, an off-diagonal entry `(i,j)`
becomes `entry(i,j) * sqrt(diag(i) * diag(j))`. -/
def decorr_spec {α : Type} [Mul α] (sqrt : α → α) (x : NumericMatrix α) (i j : Nat) : Option α :=
  if i = j then x.get? i i
  else
    match x.get? i j, x.get? i i, x.get? j j with
    | some xij, some xii, some xjj => some (xij * sqrt (xii * xjj))
    | _, _, _ => none

/-- `void decorr(Rcpp::NumericMatrix& x)`.  The argument is mutated in place; the
result is the matrix the caller holds afterwards: `.ok y` when the routine
returns, `.error (e, y)` when it fails with `e`. -/
def decorr {α : Type} [Mul α] (sqrt : α → α) (x : NumericMatrix α) :
    Except (Err × NumericMatrix α) (NumericMatrix α) :=
  let n := x.nrow
  if n ≠ x.ncol then .error (Err.stop "matrix is not square", x)
  else forLoop n (fun i x => forLoop n (fun j x => decorr.cell sqrt i j x) x) x

/-- State of the matrix while `decorr` runs on `x`: the shape and attributes are
those of `x`, and a cell holds the rewritten value exactly when `done` says it has
been visited. -/
def decorr.Partial {α : Type} [Mul α] (sqrt : α → α) (x : NumericMatrix α) (done : Nat → Nat → Prop)
    (y : NumericMatrix α) : Prop :=
  y.nrow = x.nrow ∧ y.ncol = x.ncol ∧ y.WF ∧ y.dimnames = x.dimnames ∧
  ∀ r c, r < x.nrow → c < x.nrow →
    (done r c → y.get? r c = decorr_spec sqrt x r c) ∧ (¬ done r c → y.get? r c = x.get? r c)


/-! ## `SUPERMATRIX` -/

/-- The loop `for (j = 0; j < n; ++j) v.push_back(s);`. -/
def push_back_n (n : Nat) (s : String) (v : List String) : List String :=
  match n with
  | 0 => v
  | k + 1 => push_back_n k s v ++ [s]

/-- The loop `for (j = 0, n = src.size(); j < n; ++j) v.push_back(src[j]);`. -/
def push_back_all (src : List String) (v : List String) : List String :=
  src.foldl (fun acc s => acc ++ [s]) v

/-- The locals `tot`, `rnam` and `cnam` of `SUPERMATRIX`. -/
structure SUPERMATRIX.Names where
  tot : Nat
  rnam : List String
  cnam : List String
  deriving DecidableEq, Repr

/-- The initial values of `tot`, `rnam`, `cnam`. -/
def SUPERMATRIX.names0 : SUPERMATRIX.Names := { tot := 0, rnam := [], cnam := [] }

/-- The locals `ret`, `totrow` and `totcol` of `SUPERMATRIX`. -/
structure SUPERMATRIX.Fill (α : Type) where
  ret : NumericMatrix α
  totrow : Nat
  totcol : Nat
  deriving DecidableEq, Repr

/-- Body of the first loop of `SUPERMATRIX` (source lines 160-189) for one list
element `mat`. -/
def SUPERMATRIX.scan {α : Type} (keep_names : Bool) (mat : NumericMatrix α)
    (s : SUPERMATRIX.Names) : Except Err SUPERMATRIX.Names :=
  if mat.nrow = 0 then .ok s
  else if mat.nrow ≠ mat.ncol then .error (Err.stop "Not all matrices are square")
  else
    let tot := s.tot + mat.nrow
    if !keep_names then .ok { s with tot := tot }
    else
      match mat.dimnames with
      | none =>
        .ok { tot := tot
              rnam := push_back_n mat.nrow "." s.rnam
              cnam := push_back_n mat.nrow "." s.cnam }
      | some (rn, cn) =>
        .ok { tot := tot
              rnam := match rn with
                | some this_nam => push_back_all this_nam s.rnam
                | none => push_back_n mat.nrow "." s.rnam
              cnam := match cn with
                | some this_nam => push_back_all this_nam s.cnam
                | none => push_back_n mat.ncol "." s.cnam }

/-- Body of the second loop of `SUPERMATRIX` (source lines 198-206) for one list
element `mat`: copy `mat` to `ret` at `(totrow, totcol)`, then advance both. -/
def SUPERMATRIX.place {α : Type} (mat : NumericMatrix α) (s : SUPERMATRIX.Fill α) :
    Except Err (SUPERMATRIX.Fill α) :=
  match forLoop mat.nrow (fun j ret =>
      forLoop mat.ncol (fun k ret =>
        match mat.get? j k with
        | some v => orFail Err.outOfBounds (ret.set? (s.totrow + j) (s.totcol + k) v)
        | none => .error Err.outOfBounds) ret) s.ret with
  | .ok ret => .ok { ret := ret, totrow := s.totrow + mat.nrow, totcol := s.totcol + mat.ncol }
  | .error e => .error e

/-- `Rcpp::NumericMatrix SUPERMATRIX(const Rcpp::List& a, bool keep_names)`. -/
def SUPERMATRIX {α : Type} [Zero α] (a : List (NumericMatrix α)) (keep_names : Bool) :
    Except Err (NumericMatrix α) :=
  match forEach a (SUPERMATRIX.scan keep_names) SUPERMATRIX.names0 with
  | .error e => .error e
  | .ok nm =>
    match forEach a SUPERMATRIX.place
        { ret := NumericMatrix.zeros nm.tot nm.tot, totrow := 0, totcol := 0 } with
    | .error e => .error e
    | .ok f =>
      .ok (if keep_names then { f.ret with dimnames := some (some nm.rnam, some nm.cnam) }
           else f.ret)

/-- Sum of the row counts of a list of matrices. -/
def sumRows {α : Type} (a : List (NumericMatrix α)) : Nat := (a.map (fun m => m.nrow)).sum

/-- Sum of the column counts of a list of matrices. -/
def sumCols {α : Type} (a : List (NumericMatrix α)) : Nat := (a.map (fun m => m.ncol)).sum

/-- The non-empty matrices of the list, in input order.  Empty means what the
first loop of `SUPERMATRIX` tests: `mat.nrow() == 0`. -/
def nonEmpty {α : Type} (a : List (NumericMatrix α)) : List (NumericMatrix α) :=
  a.filter (fun m => decide (m.nrow ≠ 0))

/-- The output dimension `T`: the sum of the dimensions of the non-empty matrices. -/
def totalDim {α : Type} (a : List (NumericMatrix α)) : Nat := sumRows (nonEmpty a)

/-- The offset of matrix `i`: the sum of the dimensions of the earlier non-empty
matrices. -/
def blockOffset {α : Type} (a : List (NumericMatrix α)) (i : Nat) : Nat := totalDim (a.take i)

/-- Index `r` lies in the range `[off, off + dim)`. -/
def inRange (off dim r : Nat) : Prop := off ≤ r ∧ r < off + dim

instance (off dim r : Nat) : Decidable (inRange off dim r) := by unfold inRange; infer_instance

/-- The row labels one matrix contributes: its own when it carries them, else the
placeholder `"."` once per row. -/
def rowLabelsOf {α : Type} (m : NumericMatrix α) : List String :=
  match m.dimnames with
  | some (some l, _) => l
  | _ => List.replicate m.nrow "."

/-- The column labels one matrix contributes: its own when it carries them, else
the placeholder `"."` once per column. -/
def colLabelsOf {α : Type} (m : NumericMatrix α) : List String :=
  match m.dimnames with
  | some (_, some l) => l
  | _ => List.replicate m.ncol "."

/-- Concatenation of the row labels of the non-empty matrices, in input order. -/
def rowLabels {α : Type} (a : List (NumericMatrix α)) : List String :=
  (nonEmpty a).flatMap rowLabelsOf

/-- Concatenation of the column labels of the non-empty matrices, in input order. -/
def colLabels {α : Type} (a : List (NumericMatrix α)) : List String :=
  (nonEmpty a).flatMap colLabelsOf

/-- The entry `(r, c)` of the block-diagonal arrangement of a list of square
matrices: the entry of the first matrix when both indices fall inside it, the entry
of the arrangement of the rest, shifted, when both fall behind it, zero otherwise. -/
def blockEntry {α : Type} [Zero α] : List (NumericMatrix α) → Nat → Nat → Option α
  | [], _, _ => some 0
  | m :: ms, r, c =>
    if r < m.nrow ∧ c < m.nrow then m.get? r c
    else if m.nrow ≤ r ∧ m.nrow ≤ c then blockEntry ms (r - m.nrow) (c - m.nrow)
    else some 0

/-! ## `EXPAND_EVENTS` -/

/-- The locals `ans` and `crow` of `EXPAND_EVENTS`. -/
structure EXPAND_EVENTS.Cursor (α : Type) where
  ans : NumericMatrix α
  crow : Nat
  deriving DecidableEq, Repr

/-- Body of the loop over the template rows `j` in `EXPAND_EVENTS` (source lines
283-287), for subject `i`. -/
def EXPAND_EVENTS.row {α : Type} (events : NumericMatrix α) (id : List α) (idcol : Nat)
    (i j : Nat) (s : EXPAND_EVENTS.Cursor α) : Except Err (EXPAND_EVENTS.Cursor α) :=
  match forLoop events.ncol (fun k ans =>
      match events.get? j k with
      | some v => orFail Err.outOfBounds (ans.set? s.crow k v)
      | none => .error Err.outOfBounds) s.ans with
  | .error e => .error e
  | .ok ans =>
    match id[i]? with
    | none => .error Err.outOfBounds
    | some idi =>
      match ans.set? s.crow idcol idi with
      | none => .error Err.outOfBounds
      | some ans2 => .ok { ans := ans2, crow := s.crow + 1 }

/-- `Rcpp::NumericMatrix EXPAND_EVENTS(idcol_, events, id)`.  Reading `dimnames[1]`
fails when `events` has no `dimnames` (the list is empty) and the conversion to a
character vector fails when the column labels are `NULL`. -/
def EXPAND_EVENTS {α : Type} [Zero α] (idcol_ : List Int) (events : NumericMatrix α)
    (id : List α) : Except Err (NumericMatrix α) :=
  match idcol_[0]? with
  | none => .error Err.outOfBounds
  | some v =>
    let idcol0 : Int := v - 1
    match events.dimnames with
    | none => .error Err.outOfBounds
    | some (_, none) => .error Err.notCompatible
    | some (_, some names0) =>
      let ncol_new := if idcol0 < 0 then events.ncol + 1 else events.ncol
      let names := if idcol0 < 0 then names0 ++ ["ID"] else names0
      let idcol : Nat := if idcol0 < 0 then ncol_new - 1 else idcol0.toNat
      match forLoop id.length (fun i s =>
          forLoop events.nrow (fun j s => EXPAND_EVENTS.row events id idcol i j s) s)
          { ans := NumericMatrix.zeros (events.nrow * id.length) ncol_new, crow := 0 } with
      | .error e => .error e
      | .ok s => .ok { s.ans with dimnames := some (some [], some names) }

/-- The identifier column of the output of `EXPAND_EVENTS`, for `idcol_[0] = v` and
a template of `C` columns: the resolved index `v - 1` when it is not negative, the
appended column `C` when it is. -/
def EXPAND_EVENTS.idColumn (v : Int) (C : Nat) : Nat :=
  if v - 1 < 0 then C else (v - 1).toNat

/-- State of `ans` once the first `n` output rows are written: row `r < n` holds
`id[r / R]` in the identifier column and row `r % R` of the template elsewhere. -/
def EXPAND_EVENTS.Filled {α : Type} (events : NumericMatrix α) (id : List α)
    (idcol ncol_new : Nat) (n : Nat) (s : EXPAND_EVENTS.Cursor α) : Prop :=
  s.crow = n ∧ s.ans.nrow = events.nrow * id.length ∧ s.ans.ncol = ncol_new ∧ s.ans.WF ∧
  s.ans.dimnames = none ∧
  ∀ r, r < n →
    s.ans.get? r idcol = id[r / events.nrow]? ∧
    ∀ c, c < events.ncol → c ≠ idcol → s.ans.get? r c = events.get? (r % events.nrow) c

/-- The cell `(r, c)` of the table `EXPAND_EVENTS` is to return for `idcol_[0] = v`:
the identifier of subject `r / R` in the identifier column, the entry of template
row `r % R` in any other column. -/
def EXPAND_EVENTS.cell {α : Type} (events : NumericMatrix α) (id : List α) (v : Int)
    (r c : Nat) : Option α :=
  if c = EXPAND_EVENTS.idColumn v events.ncol then id[r / events.nrow]?
  else events.get? (r % events.nrow) c

/-! ## `MVGAUSS` -/

/-- `arma::mat MVGAUSS(arma::mat& OMEGA, int n)` for a `K × K` matrix `OMEGA`.
The two library calls are parameters: `eig_sym` is Armadillo's symmetric
eigen-decomposition (eigenvalues, eigenvectors as columns) and `X` is the `n × K`
matrix drawn by `arma::randn`; `sqrt` is the element-wise square root.  The source
has no failure path of its own: every run ends in `return X.t()`. -/
def MVGAUSS {α : Type} [Semiring α] {K n : Nat}
    (eig_sym : Matrix (Fin K) (Fin K) α → (Fin K → α) × Matrix (Fin K) (Fin K) α)
    (sqrt : α → α) (X : Matrix (Fin n) (Fin K) α) (OMEGA : Matrix (Fin K) (Fin K) α) :
    Except Err (Matrix (Fin n) (Fin K) α) :=
  let eigval := (eig_sym OMEGA).1
  let eigvec := (eig_sym OMEGA).2
  let eigval := fun k => sqrt (eigval k)
  let Z := Matrix.diagonal eigval
  let X := eigvec * Z * X.transpose
  .ok X.transpose

/-- Armadillo's decomposition of a `1 × 1` matrix: the entry is the eigenvalue and
`[1]` the eigenvector. -/
def eig_sym_1x1 {α : Type} [Semiring α] (A : Matrix (Fin 1) (Fin 1) α) :
    (Fin 1 → α) × Matrix (Fin 1) (Fin 1) α :=
  (fun i => A i i, 1)

/-- The transform `Z = eigvec * diagmat(sqrt(eigval))` that `MVGAUSS` applies to the
draws (source lines 110-114). -/
def MVGAUSS.Z {α : Type} [Semiring α] {K : Nat}
    (eig_sym : Matrix (Fin K) (Fin K) α → (Fin K → α) × Matrix (Fin K) (Fin K) α)
    (sqrt : α → α) (OMEGA : Matrix (Fin K) (Fin K) α) : Matrix (Fin K) (Fin K) α :=
  (eig_sym OMEGA).2 * Matrix.diagonal (fun k => sqrt ((eig_sym OMEGA).1 k))

/-! ## `find_position` and `from_to` -/

/-- `Rcpp::match(x, table)`: for each element of `x` the 1-based position of its
first occurrence in `table`, and `NA` (here `none`) when it does not occur. -/
def Rcpp_match (x table : List String) : List (Option Int) :=
  x.map (fun s => if s ∈ table then some ((table.indexOf s : Nat) + 1 : Int) else none)

/-- The sugar expression `v - 1` on an integer vector: `NA` stays `NA`. -/
def minus_one (v : List (Option Int)) : List (Option Int) :=
  v.map (fun o => o.map (fun z => z - 1))

/-- `Rcpp::na_omit(v)`: the elements that are not `NA`, in order. -/
def na_omit (v : List (Option Int)) : List Int := v.filterMap id

/-- `int find_position(const Rcpp::CharacterVector& what, const Rcpp::CharacterVector& table)`.
Reading `ma[0]` of an empty vector is outside the buffer. -/
def find_position (what table : List String) : Except Err Int :=
  let ma := Rcpp_match what table
  match ma[0]? with
  | none => .error Err.outOfBounds
  | some none => .ok (-1)
  | some (some p) => .ok (p - 1)

/-- `void from_to(a, b, ai, bi)`; the result is the pair of the vectors `ai` and
`bi` as the routine leaves them.  `std::sort` is the ascending sort. -/
def from_to (a b : List String) : List Int × List Int :=
  let ai := minus_one (Rcpp_match b a)
  let bi := minus_one (Rcpp_match a b)
  let ai := na_omit ai
  let bi := na_omit bi
  (ai, bi.insertionSort (fun p q => p ≤ q))

/-! ## `ZERO` -/

/-- `Rcpp::NumericMatrix ZERO(Rcpp::NumericMatrix& x)`: the outer counter `i` runs
to `x.ncol()`, the inner counter `j` to `x.nrow()`, and the cell written is
`x(i,j)`.  The argument is mutated in place; a failure carries the matrix as it
stands at that moment. -/
def ZERO {α : Type} [Zero α] (x : NumericMatrix α) :
    Except (Err × NumericMatrix α) (NumericMatrix α) :=
  forLoop x.ncol (fun i x1 =>
    forLoop x.nrow (fun j x2 => orFail (Err.outOfBounds, x2) (x2.set? i j 0)) x1) x

/-- The (row, column) arguments of the accesses `x(i,j)` that the loops of `ZERO`
issue, in order. -/
def ZERO.accesses {α : Type} (x : NumericMatrix α) : List (Nat × Nat) :=
  (List.range x.ncol).flatMap (fun i => (List.range x.nrow).map (fun j => (i, j)))

/-- State of the matrix while `ZERO` runs on `x`: shape and attributes are those of
`x`, the cells marked by `done` hold zero and the others still hold the entry of `x`. -/
def ZERO.Partial {α : Type} [Zero α] (x : NumericMatrix α) (done : Nat → Nat → Prop)
    (y : NumericMatrix α) : Prop :=
  y.nrow = x.nrow ∧ y.ncol = x.ncol ∧ y.WF ∧ y.dimnames = x.dimnames ∧
  ∀ r c, r < x.nrow → c < x.ncol →
    (done r c → y.get? r c = some 0) ∧ (¬ done r c → y.get? r c = x.get? r c)

/-! ## Concrete inputs -/

/-- The matrix `[[4, 0.5], [0.5, 9]]`. -/
def ex_corr : NumericMatrix ℚ := { nrow := 2, ncol := 2, data := [4, 1/2, 1/2, 9] }

/-- A `1 × 2` matrix. -/
def ex_rect : NumericMatrix ℚ := { nrow := 1, ncol := 2, data := [1, 2] }

/-- Matrices of sizes 2, 3, 0 and 1; the first carries row labels only, the last
both label vectors. -/
def ex_blocks : List (NumericMatrix ℚ) :=
  [ { nrow := 2, ncol := 2, data := [1, 2, 3, 4], dimnames := some (some ["a", "b"], none) },
    { nrow := 3, ncol := 3, data := [11, 12, 13, 14, 15, 16, 17, 18, 19] },
    { nrow := 0, ncol := 0, data := [] },
    { nrow := 1, ncol := 1, data := [7], dimnames := some (some ["r"], some ["c"]) } ]

/-- A `0 × 1` matrix (R: `matrix(0, 0, 1)`) followed by the `1 × 1` matrix `[5]`. -/
def ex_shift1 : List (NumericMatrix ℚ) :=
  [ { nrow := 0, ncol := 1, data := [] }, { nrow := 1, ncol := 1, data := [5] } ]

/-- A `0 × 3` matrix (R: `matrix(0, 0, 3)`) followed by a `2 × 2` matrix. -/
def ex_shift3 : List (NumericMatrix ℚ) :=
  [ { nrow := 0, ncol := 3, data := [] }, { nrow := 2, ncol := 2, data := [1, 2, 3, 4] } ]

/-- A list with a `1 × 2` element. -/
def ex_notsquare : List (NumericMatrix ℚ) :=
  [ { nrow := 1, ncol := 1, data := [5] }, { nrow := 1, ncol := 2, data := [1, 2] } ]

/-- A template of 3 rows and 2 columns, `time` and `amt`. -/
def ex_events : NumericMatrix ℚ :=
  { nrow := 3, ncol := 2, data := [0, 12, 24, 100, 50, 50],
    dimnames := some (none, some ["time", "amt"]) }

/-- A template of 3 rows whose second column is the identifier column. -/
def ex_events_id : NumericMatrix ℚ :=
  { nrow := 3, ncol := 2, data := [0, 12, 24, 1, 1, 1],
    dimnames := some (none, some ["time", "ID"]) }

/-- A `2 × 3` matrix without a zero entry (R: `matrix(1:6, 2, 3)`). -/
def ex_wide : NumericMatrix ℚ := { nrow := 2, ncol := 3, data := [1, 2, 3, 4, 5, 6] }

/-- A `2 × 1` matrix (R: `matrix(1:2, 2, 1)`). -/
def ex_tall : NumericMatrix ℚ := { nrow := 2, ncol := 1, data := [1, 2] }

/-- A template of 3 rows whose first column is the identifier column. -/
def ex_events_id_first : NumericMatrix ℚ :=
  { nrow := 3, ncol := 2, data := [1, 1, 1, 0, 12, 24],
    dimnames := some (none, some ["ID", "time"]) }

/-! ## Element access and loops: basic facts -/

namespace NumericMatrix

variable {α : Type}

theorem offset_lt {m : NumericMatrix α} (h : m.WF) {i j : Nat} (hi : i < m.nrow)
    (hj : j < m.ncol) : m.offset i j < m.data.length := by
  unfold offset; rw [h]
  calc i + m.nrow * j < m.nrow + m.nrow * j := by omega
    _ = m.nrow * (j + 1) := by ring
    _ ≤ m.nrow * m.ncol := Nat.mul_le_mul_left _ hj

theorem offset_inj {m : NumericMatrix α} {i j i2 j2 : Nat} (hi : i < m.nrow)
    (hi2 : i2 < m.nrow) (h : m.offset i j = m.offset i2 j2) : i = i2 ∧ j = j2 := by
  unfold offset at h
  have hn : 0 < m.nrow := by omega
  have h1 : (i + m.nrow * j) % m.nrow = i := by
    rw [Nat.add_mul_mod_self_left]; exact Nat.mod_eq_of_lt hi
  have h2 : (i2 + m.nrow * j2) % m.nrow = i2 := by
    rw [Nat.add_mul_mod_self_left]; exact Nat.mod_eq_of_lt hi2
  have e : i = i2 := by rw [← h1, ← h2, h]
  subst e
  refine ⟨rfl, ?_⟩
  have : m.nrow * j = m.nrow * j2 := by omega
  exact Nat.eq_of_mul_eq_mul_left hn this

/-- A column index beyond the extent always addresses a cell outside the buffer. -/
theorem offset_ge_of_col {m : NumericMatrix α} (h : m.WF) {i j : Nat} (hj : m.ncol ≤ j) :
    m.data.length ≤ m.offset i j := by
  unfold offset; rw [h]
  have := Nat.mul_le_mul_left m.nrow hj
  omega

theorem get?_isSome {m : NumericMatrix α} (h : m.WF) {i j : Nat} (hi : i < m.nrow)
    (hj : j < m.ncol) : ∃ v, m.get? i j = some v := by
  have := offset_lt h hi hj
  exact ⟨m.data[m.offset i j], by simp [get?, this]⟩

/-- A write inside the extents succeeds, keeps the shape and the attributes, and
changes exactly the addressed cell. -/
theorem set?_spec {m : NumericMatrix α} (h : m.WF) {i j : Nat} (hi : i < m.nrow)
    (hj : j < m.ncol) (v : α) :
    ∃ m2, m.set? i j v = some m2 ∧ m2.nrow = m.nrow ∧ m2.ncol = m.ncol ∧ m2.WF ∧
      m2.dimnames = m.dimnames ∧ m2.get? i j = some v ∧
      ∀ i2 j2, i2 < m.nrow → (i2 ≠ i ∨ j2 ≠ j) → m2.get? i2 j2 = m.get? i2 j2 := by
  have hlt := offset_lt h hi hj
  refine ⟨{ m with data := m.data.set (m.offset i j) v }, by simp [set?, hlt], rfl, rfl,
    ?_, rfl, ?_, ?_⟩
  · simp [WF] at h ⊢; exact h
  · simp [get?, offset, List.getElem?_set] at hlt ⊢
    exact hlt
  · intro i2 j2 hi2 hne
    have : m.offset i j ≠ m.offset i2 j2 := by
      intro e
      have := offset_inj hi hi2 e
      omega
    simp only [get?, offset] at this ⊢
    rw [List.getElem?_set_ne this]

theorem zeros_WF [Zero α] (r c : Nat) : (zeros r c : NumericMatrix α).WF := by
  simp [WF, zeros]

theorem zeros_get? [Zero α] {r c i j : Nat} (hi : i < r) (hj : j < c) :
    (zeros r c : NumericMatrix α).get? i j = some 0 := by
  have h := offset_lt (zeros_WF r c : (zeros r c : NumericMatrix α).WF) (i := i) (j := j) hi hj
  simp only [get?, zeros, offset, List.length_replicate] at h ⊢
  rw [List.getElem?_replicate]
  simp [h]

end NumericMatrix

/-- Invariant rule for `forLoop`: an invariant that holds at the start and is carried
by every iteration that can run holds at the end, and the loop does not fail. -/
theorem forLoop_inv {ε σ : Type} (P : Nat → σ → Prop) (n : Nat)
    (body : Nat → σ → Except ε σ) (s : σ) (h0 : P 0 s)
    (hstep : ∀ i t, i < n → P i t → ∃ t2, body i t = .ok t2 ∧ P (i + 1) t2) :
    ∃ t, forLoop n body s = .ok t ∧ P n t := by
  induction n with
  | zero => exact ⟨s, rfl, h0⟩
  | succ k ih =>
    obtain ⟨t, ht, hP⟩ := ih (fun i t hi hp => hstep i t (by omega) hp)
    obtain ⟨t2, ht2, hP2⟩ := hstep k t (by omega) hP
    exact ⟨t2, by simp [forLoop, ht, ht2], hP2⟩

/-! ## `decorr` -/

section Decorr

variable {α : Type} [Mul α]

theorem decorr_spec_diag (sqrt : α → α) (x : NumericMatrix α) (i : Nat) :
    decorr_spec sqrt x i i = x.get? i i := by
  simp [decorr_spec]

theorem decorr.cell_step (sqrt : α → α) (x : NumericMatrix α) (hwf : x.WF)
    (hsq : x.nrow = x.ncol) (i j : Nat) (hi : i < x.nrow) (hj : j < x.nrow)
    (y : NumericMatrix α)
    (hy : decorr.Partial sqrt x (fun r c => r < i ∨ (r = i ∧ c < j)) y) :
    ∃ y2, decorr.cell sqrt i j y = .ok y2 ∧
      decorr.Partial sqrt x (fun r c => r < i ∨ (r = i ∧ c < j + 1)) y2 := by
  obtain ⟨hr, hc, hywf, hdn, hcells⟩ := hy
  have hdiag : ∀ d, d < x.nrow → y.get? d d = x.get? d d := by
    intro d hd
    by_cases hv : d < i ∨ (d = i ∧ d < j)
    · rw [(hcells d d hd hd).1 hv, decorr_spec_diag]
    · exact (hcells d d hd hd).2 hv
  by_cases hji : j = i
  · subst hji
    refine ⟨y, by simp [decorr.cell], hr, hc, hywf, hdn, ?_⟩
    intro r c hr2 hc2
    refine ⟨fun hd => ?_, fun hd => (hcells r c hr2 hc2).2 (fun h => hd (by omega))⟩
    by_cases hd2 : r < j ∨ (r = j ∧ c < j)
    · exact (hcells r c hr2 hc2).1 hd2
    · have hrj : r = j := by omega
      have hcj : c = j := by omega
      rw [hrj, hcj, decorr_spec_diag]
      exact hdiag j hj
  · obtain ⟨xij, hxij⟩ := NumericMatrix.get?_isSome hwf hi (hsq ▸ hj)
    obtain ⟨xii, hxii⟩ := NumericMatrix.get?_isSome hwf hi (hsq ▸ hi)
    obtain ⟨xjj, hxjj⟩ := NumericMatrix.get?_isSome hwf hj (hsq ▸ hj)
    have e1 : y.get? i j = some xij := by
      rw [(hcells i j hi hj).2 (by omega), hxij]
    have e2 : y.get? i i = some xii := by rw [hdiag i hi, hxii]
    have e3 : y.get? j j = some xjj := by rw [hdiag j hj, hxjj]
    obtain ⟨y2, hset, hr2, hc2, hwf2, hdn2, hnew, hframe⟩ :=
      NumericMatrix.set?_spec hywf (i := i) (j := j) (by omega) (by omega)
        (xij * sqrt (xii * xjj))
    refine ⟨y2, by simp [decorr.cell, hji, e1, e2, e3, hset, orFail], by omega, by omega,
      hwf2, by rw [hdn2, hdn], ?_⟩
    intro r c hrn hcn
    by_cases hrc : r = i ∧ c = j
    · obtain ⟨hri, hcj⟩ := hrc
      rw [hri, hcj]
      refine ⟨fun _ => ?_, fun hd => absurd (Or.inr ⟨rfl, Nat.lt_succ_self _⟩) hd⟩
      have hne : ¬ i = j := fun h => hji h.symm
      rw [hnew]
      simp [decorr_spec, hne, hxij, hxii, hxjj]
    · have hfr := hframe r c (by omega) (by omega)
      rw [hfr]
      refine ⟨fun hd => (hcells r c hrn hcn).1 (by omega),
        fun hd => (hcells r c hrn hcn).2 (fun h => hd (by omega))⟩

theorem decorr.row_step (sqrt : α → α) (x : NumericMatrix α) (hwf : x.WF)
    (hsq : x.nrow = x.ncol) (i : Nat) (hi : i < x.nrow) (y : NumericMatrix α)
    (hy : decorr.Partial sqrt x (fun r _ => r < i) y) :
    ∃ y2, forLoop x.nrow (fun j y => decorr.cell sqrt i j y) y = .ok y2 ∧
      decorr.Partial sqrt x (fun r _ => r < i + 1) y2 := by
  have hpart : ∀ (d1 d2 : Nat → Nat → Prop) (z : NumericMatrix α),
      (∀ r c, r < x.nrow → c < x.nrow → (d1 r c ↔ d2 r c)) →
      decorr.Partial sqrt x d1 z → decorr.Partial sqrt x d2 z := by
    intro d1 d2 z hd hz
    obtain ⟨a, b, c, d, e⟩ := hz
    refine ⟨a, b, c, d, fun r c hr hc => ?_⟩
    rw [← hd r c hr hc]
    exact e r c hr hc
  obtain ⟨y2, hrun, hP⟩ := forLoop_inv
    (fun j z => decorr.Partial sqrt x (fun r c => r < i ∨ (r = i ∧ c < j)) z)
    (x.nrow) (fun j y => decorr.cell sqrt i j y) (y)
    (hpart _ _ y (fun r c _ _ => by constructor <;> intro h <;> omega) hy)
    (fun j t hj ht => decorr.cell_step sqrt x hwf hsq i j hi hj t ht)
  exact ⟨y2, hrun, hpart _ _ y2 (fun r c _ hc => by constructor <;> intro h <;> omega) hP⟩

end Decorr

/-! ## `SUPERMATRIX`: the copy loop -/

section Place

variable {α : Type}

theorem forLoop_error {ε σ : Type} (Q : ε → Prop) {n : Nat} {body : Nat → σ → Except ε σ}
    (hbody : ∀ i t e, body i t = .error e → Q e) {s : σ} {e : ε}
    (h : forLoop n body s = .error e) : Q e := by
  induction n with
  | zero => simp [forLoop] at h
  | succ k ih =>
    simp only [forLoop] at h
    cases hk : forLoop k body s with
    | error e2 => rw [hk] at h; cases h; exact ih hk
    | ok t => rw [hk] at h; exact hbody k t e h

/-- Copying `mat` into `ret` at `(totrow, totcol)` succeeds when the block fits, and
changes exactly the cells of the block. -/
theorem SUPERMATRIX.place_spec (mat : NumericMatrix α) (s : SUPERMATRIX.Fill α)
    (hm : mat.WF) (hs : s.ret.WF) (hrow : s.totrow + mat.nrow ≤ s.ret.nrow)
    (hcol : s.totcol + mat.ncol ≤ s.ret.ncol) :
    ∃ t, SUPERMATRIX.place mat s = .ok t ∧ t.totrow = s.totrow + mat.nrow ∧
      t.totcol = s.totcol + mat.ncol ∧ t.ret.nrow = s.ret.nrow ∧ t.ret.ncol = s.ret.ncol ∧
      t.ret.WF ∧ t.ret.dimnames = s.ret.dimnames ∧
      ∀ r c, r < s.ret.nrow →
        ((s.totrow ≤ r ∧ r < s.totrow + mat.nrow ∧ s.totcol ≤ c ∧ c < s.totcol + mat.ncol →
            t.ret.get? r c = mat.get? (r - s.totrow) (c - s.totcol)) ∧
         (¬ (s.totrow ≤ r ∧ r < s.totrow + mat.nrow ∧ s.totcol ≤ c ∧ c < s.totcol + mat.ncol) →
            t.ret.get? r c = s.ret.get? r c)) := by
  -- cells copied so far: rows below `j`, and the first `k` cells of row `j`
  let Inv : (Nat → Nat → Prop) → NumericMatrix α → Prop := fun done ret =>
    ret.nrow = s.ret.nrow ∧ ret.ncol = s.ret.ncol ∧ ret.WF ∧ ret.dimnames = s.ret.dimnames ∧
    ∀ r c, r < s.ret.nrow →
      (done r c → ret.get? r c = mat.get? (r - s.totrow) (c - s.totcol)) ∧
      (¬ done r c → ret.get? r c = s.ret.get? r c)
  have hInv : ∀ (d1 d2 : Nat → Nat → Prop) (z : NumericMatrix α),
      (∀ r c, d1 r c ↔ d2 r c) → Inv d1 z → Inv d2 z := by
    intro d1 d2 z hd hz
    obtain ⟨h1, h2, h3, h4, h5⟩ := hz
    refine ⟨h1, h2, h3, h4, fun r c hr => ?_⟩
    rw [← hd r c]
    exact h5 r c hr
  have inner : ∀ j, j < mat.nrow → ∀ ret,
      Inv (fun r c => s.totrow ≤ r ∧ r < s.totrow + j ∧ s.totcol ≤ c ∧
        c < s.totcol + mat.ncol) ret →
      ∃ ret2, forLoop mat.ncol (fun k ret =>
          match mat.get? j k with
          | some v => orFail Err.outOfBounds (ret.set? (s.totrow + j) (s.totcol + k) v)
          | none => .error Err.outOfBounds) ret = .ok ret2 ∧
        Inv (fun r c => s.totrow ≤ r ∧ r < s.totrow + (j + 1) ∧ s.totcol ≤ c ∧
          c < s.totcol + mat.ncol) ret2 := by
    intro j hj ret hret
    obtain ⟨ret2, hrun, hP⟩ := forLoop_inv
      (fun k z => Inv (fun r c => (s.totrow ≤ r ∧ r < s.totrow + j ∧ s.totcol ≤ c ∧
          c < s.totcol + mat.ncol) ∨ (r = s.totrow + j ∧ s.totcol ≤ c ∧ c < s.totcol + k)) z)
      (mat.ncol)
      (fun k ret =>
          match mat.get? j k with
          | some v => orFail Err.outOfBounds (ret.set? (s.totrow + j) (s.totcol + k) v)
          | none => .error Err.outOfBounds)
      (ret)
      (hInv _ _ ret (fun r c => by constructor <;> intro h <;> omega) hret)
      (by
        intro k z hk hz
        obtain ⟨h1, h2, h3, h4, h5⟩ := hz
        obtain ⟨v, hv⟩ := NumericMatrix.get?_isSome hm hj hk
        obtain ⟨z2, hset, g1, g2, g3, g4, gnew, gframe⟩ :=
          NumericMatrix.set?_spec h3 (i := s.totrow + j) (j := s.totcol + k)
            (by omega) (by omega) v
        refine ⟨z2, by simp [hv, hset, orFail], by omega, by omega, g3, by rw [g4, h4], ?_⟩
        intro r c hr
        by_cases hrc : r = s.totrow + j ∧ c = s.totcol + k
        · obtain ⟨e1, e2⟩ := hrc
          refine ⟨fun _ => ?_, fun hd => absurd (by omega) hd⟩
          rw [e1, e2, gnew, ← hv]
          congr 1 <;> omega
        · rw [gframe r c (by omega) (by omega)]
          exact ⟨fun hd => (h5 r c hr).1 (by omega), fun hd => (h5 r c hr).2 (by omega)⟩)
    exact ⟨ret2, hrun, hInv _ _ ret2 (fun r c => by constructor <;> intro h <;> omega) hP⟩
  obtain ⟨ret2, hrun, hP⟩ := forLoop_inv
    (fun j z => Inv (fun r c => s.totrow ≤ r ∧ r < s.totrow + j ∧ s.totcol ≤ c ∧
        c < s.totcol + mat.ncol) z)
    (mat.nrow)
    (fun j ret => forLoop mat.ncol (fun k ret =>
          match mat.get? j k with
          | some v => orFail Err.outOfBounds (ret.set? (s.totrow + j) (s.totcol + k) v)
          | none => .error Err.outOfBounds) ret)
    (s.ret)
    ⟨rfl, rfl, hs, rfl, fun r c _ => ⟨fun hd => absurd hd (by omega), fun _ => rfl⟩⟩
    (fun j z hj hz => inner j hj z hz)
  obtain ⟨h1, h2, h3, h4, h5⟩ := hP
  exact ⟨⟨ret2, s.totrow + mat.nrow, s.totcol + mat.ncol⟩, by simp [SUPERMATRIX.place, hrun],
    rfl, rfl, h1, h2, h3, h4, h5⟩

end Place

section PlaceAll

variable {α : Type}

@[simp] theorem sumRows_nil : sumRows ([] : List (NumericMatrix α)) = 0 := rfl

@[simp] theorem sumRows_cons (m : NumericMatrix α) (ms : List (NumericMatrix α)) :
    sumRows (m :: ms) = m.nrow + sumRows ms := by simp [sumRows]

@[simp] theorem sumCols_nil : sumCols ([] : List (NumericMatrix α)) = 0 := rfl

@[simp] theorem sumCols_cons (m : NumericMatrix α) (ms : List (NumericMatrix α)) :
    sumCols (m :: ms) = m.ncol + sumCols ms := by simp [sumCols]

/-- The second loop of `SUPERMATRIX`, for matrices of any shape that together fit
into `ret`: matrix `i` lands at the row offset `totrow + Σ nrow` and the column
offset `totcol + Σ ncol` of the elements before it, and no other cell changes. -/
theorem SUPERMATRIX.place_all (a : List (NumericMatrix α)) :
    ∀ (s : SUPERMATRIX.Fill α), (∀ m ∈ a, m.WF) → s.ret.WF →
      s.totrow + sumRows a ≤ s.ret.nrow → s.totcol + sumCols a ≤ s.ret.ncol →
      ∃ t, forEach a SUPERMATRIX.place s = .ok t ∧
        t.ret.nrow = s.ret.nrow ∧ t.ret.ncol = s.ret.ncol ∧ t.ret.WF ∧
        t.ret.dimnames = s.ret.dimnames ∧
        ∀ r c, r < s.ret.nrow →
          (∀ i m, a[i]? = some m →
            inRange (s.totrow + sumRows (a.take i)) m.nrow r →
            inRange (s.totcol + sumCols (a.take i)) m.ncol c →
            t.ret.get? r c =
              m.get? (r - (s.totrow + sumRows (a.take i))) (c - (s.totcol + sumCols (a.take i)))) ∧
          ((∀ i m, a[i]? = some m →
              ¬ (inRange (s.totrow + sumRows (a.take i)) m.nrow r ∧
                 inRange (s.totcol + sumCols (a.take i)) m.ncol c)) →
            t.ret.get? r c = s.ret.get? r c) := by
  induction a with
  | nil =>
    intro s _ hs _ _
    exact ⟨s, rfl, rfl, rfl, hs, rfl, fun r c _ => ⟨fun i m h => by simp at h, fun _ => rfl⟩⟩
  | cons m ms ih =>
    intro s hwf hs hrow hcol
    simp only [sumRows_cons, sumCols_cons] at hrow hcol
    obtain ⟨s1, hplace, htr, htc, hnr, hnc, hwf1, hdn1, hcell1⟩ :=
      SUPERMATRIX.place_spec m s (hwf m (List.mem_cons_self _ _)) hs (by omega) (by omega)
    obtain ⟨t, hrun, gnr, gnc, gwf, gdn, gcell⟩ :=
      ih s1 (fun x hx => hwf x (List.mem_cons_of_mem _ hx)) hwf1 (by omega) (by omega)
    refine ⟨t, by simp [forEach, hplace, hrun], by omega, by omega, gwf, by rw [gdn, hdn1], ?_⟩
    intro r c hr
    have tailFree : (∀ i x, ms[i]? = some x →
        ¬ (inRange (s1.totrow + sumRows (ms.take i)) x.nrow r ∧
           inRange (s1.totcol + sumCols (ms.take i)) x.ncol c)) →
        t.ret.get? r c = s1.ret.get? r c := (gcell r c (by omega)).2
    constructor
    · intro i x hx hrr hcc
      cases i with
      | zero =>
        simp only [List.getElem?_cons_zero, Option.some.injEq] at hx
        subst hx
        simp only [List.take_zero, sumRows_nil, sumCols_nil, Nat.add_zero, inRange] at hrr hcc ⊢
        rw [tailFree (fun k y _ hk => by
          simp only [inRange] at hk; omega)]
        exact (hcell1 r c hr).1 ⟨hrr.1, hrr.2, hcc.1, hcc.2⟩
      | succ k =>
        simp only [List.getElem?_cons_succ] at hx
        simp only [List.take_succ_cons, sumRows_cons, sumCols_cons] at hrr hcc ⊢
        have e1 : s.totrow + (m.nrow + sumRows (ms.take k)) = s1.totrow + sumRows (ms.take k) := by
          omega
        have e2 : s.totcol + (m.ncol + sumCols (ms.take k)) = s1.totcol + sumCols (ms.take k) := by
          omega
        rw [e1] at hrr ⊢
        rw [e2] at hcc ⊢
        exact (gcell r c (by omega)).1 k x hx hrr hcc
    · intro hfree
      rw [tailFree (fun k y hy hk => by
        have := hfree (k + 1) y (by simpa using hy)
        simp only [List.take_succ_cons, sumRows_cons, sumCols_cons, inRange] at this
        simp only [inRange] at hk
        apply this
        omega)]
      refine (hcell1 r c hr).2 (fun hin => ?_)
      have := hfree 0 m (by simp)
      simp only [List.take_zero, sumRows_nil, sumCols_nil, Nat.add_zero, inRange] at this
      exact this ⟨⟨hin.1, hin.2.1⟩, ⟨hin.2.2.1, hin.2.2.2⟩⟩

end PlaceAll

/-! ## `SUPERMATRIX`: the checking loop, and the two loops together -/

section Scan

variable {α : Type}

theorem push_back_n_eq (n : Nat) (s : String) (v : List String) :
    push_back_n n s v = v ++ List.replicate n s := by
  induction n with
  | zero => simp [push_back_n]
  | succ k ih => simp [push_back_n, ih, List.replicate_succ']

theorem push_back_all_eq (src v : List String) : push_back_all src v = v ++ src := by
  unfold push_back_all
  induction src generalizing v with
  | nil => simp
  | cons x xs ih => simp [ih]

theorem nonEmpty_cons (m : NumericMatrix α) (ms : List (NumericMatrix α)) :
    nonEmpty (m :: ms) = if m.nrow ≠ 0 then m :: nonEmpty ms else nonEmpty ms := by
  by_cases h : m.nrow = 0 <;> simp [nonEmpty, List.filter_cons, h]

theorem totalDim_cons (m : NumericMatrix α) (ms : List (NumericMatrix α)) :
    totalDim (m :: ms) = m.nrow + totalDim ms := by
  by_cases h : m.nrow = 0 <;> simp [totalDim, nonEmpty_cons, h]

theorem totalDim_eq_sumRows (a : List (NumericMatrix α)) : totalDim a = sumRows a := by
  induction a with
  | nil => rfl
  | cons m ms ih => rw [totalDim_cons, sumRows_cons, ih]

theorem totalDim_eq_sumCols (a : List (NumericMatrix α)) (h : ∀ m ∈ a, m.nrow = m.ncol) :
    totalDim a = sumCols a := by
  induction a with
  | nil => rfl
  | cons m ms ih =>
    rw [totalDim_cons, sumCols_cons, ih (fun x hx => h x (List.mem_cons_of_mem _ hx)),
      h m (List.mem_cons_self _ _)]

/-- One pass of the first loop on a matrix that is empty or square. -/
theorem SUPERMATRIX.scan_ok (k : Bool) (m : NumericMatrix α) (s : SUPERMATRIX.Names)
    (h : m.nrow ≠ 0 → m.nrow = m.ncol) :
    ∃ t, SUPERMATRIX.scan k m s = .ok t ∧ t.tot = s.tot + m.nrow ∧
      (k = true → t.rnam = s.rnam ++ (if m.nrow ≠ 0 then rowLabelsOf m else []) ∧
                  t.cnam = s.cnam ++ (if m.nrow ≠ 0 then colLabelsOf m else [])) ∧
      (k = false → t.rnam = s.rnam ∧ t.cnam = s.cnam) := by
  by_cases h0 : m.nrow = 0
  · exact ⟨s, by simp [SUPERMATRIX.scan, h0], by omega, fun _ => by simp [h0],
      fun _ => ⟨rfl, rfl⟩⟩
  · have hsq := h h0
    have hne : ¬ (m.nrow ≠ m.ncol) := fun hh => hh hsq
    have hc0 : m.ncol ≠ 0 := by omega
    cases k with
    | false =>
      exact ⟨{ s with tot := s.tot + m.nrow }, by simp [SUPERMATRIX.scan, h0, hne], rfl,
        fun hk => Bool.noConfusion hk, fun _ => ⟨rfl, rfl⟩⟩
    | true =>
      unfold SUPERMATRIX.scan
      rcases hd : m.dimnames with _ | ⟨_ | rn, _ | cn⟩ <;>
        simp only [h0, hne, ↓reduceIte, Bool.not_true, Bool.false_eq_true] <;>
        refine ⟨_, rfl, rfl, fun _ => ?_, fun hk => Bool.noConfusion hk⟩ <;>
        simp [push_back_n_eq, push_back_all_eq, rowLabelsOf, colLabelsOf, hd, hsq, hc0]

/-- The first loop on a list whose non-empty matrices are all square: it does not
fail, `tot` grows by the total dimension and the labels are appended in order. -/
theorem SUPERMATRIX.scan_all_ok (k : Bool) (a : List (NumericMatrix α)) :
    ∀ (s : SUPERMATRIX.Names), (∀ m ∈ a, m.nrow ≠ 0 → m.nrow = m.ncol) →
      ∃ t, forEach a (SUPERMATRIX.scan k) s = .ok t ∧ t.tot = s.tot + totalDim a ∧
        (k = true → t.rnam = s.rnam ++ rowLabels a ∧ t.cnam = s.cnam ++ colLabels a) ∧
        (k = false → t.rnam = s.rnam ∧ t.cnam = s.cnam) := by
  induction a with
  | nil =>
    intro s _
    exact ⟨s, rfl, rfl, fun _ => by simp [rowLabels, colLabels, nonEmpty], fun _ => ⟨rfl, rfl⟩⟩
  | cons m ms ih =>
    intro s h
    obtain ⟨s1, h1, t1, l1, u1⟩ := SUPERMATRIX.scan_ok k m s (h m (List.mem_cons_self _ _))
    obtain ⟨t, h2, t2, l2, u2⟩ := ih s1 (fun x hx => h x (List.mem_cons_of_mem _ hx))
    refine ⟨t, by simp [forEach, h1, h2], by rw [t2, t1, totalDim_cons]; omega, fun hk => ?_,
      fun hk => ⟨by rw [(u2 hk).1, (u1 hk).1], by rw [(u2 hk).2, (u1 hk).2]⟩⟩
    rw [(l2 hk).1, (l2 hk).2, (l1 hk).1, (l1 hk).2]
    by_cases h0 : m.nrow = 0 <;> simp [rowLabels, colLabels, nonEmpty_cons, h0]

/-- The first loop fails, with the "not square" message, as soon as the list holds
a matrix with rows whose row and column counts differ. -/
theorem SUPERMATRIX.scan_all_error (k : Bool) (a : List (NumericMatrix α)) :
    ∀ (s : SUPERMATRIX.Names), (∃ m ∈ a, m.nrow ≠ 0 ∧ m.nrow ≠ m.ncol) →
      forEach a (SUPERMATRIX.scan k) s = .error (Err.stop "Not all matrices are square") := by
  induction a with
  | nil => intro s h; obtain ⟨m, hm, _⟩ := h; cases hm
  | cons m ms ih =>
    intro s h
    by_cases hbad : m.nrow ≠ 0 ∧ m.nrow ≠ m.ncol
    · simp [forEach, SUPERMATRIX.scan, hbad.1, hbad.2]
    · obtain ⟨s1, h1, _⟩ := SUPERMATRIX.scan_ok k m s (fun h0 => by
        by_contra hne; exact hbad ⟨h0, hne⟩)
      have hrest : ∃ x ∈ ms, x.nrow ≠ 0 ∧ x.nrow ≠ x.ncol := by
        obtain ⟨x, hx, hx2⟩ := h
        rcases List.mem_cons.mp hx with rfl | hx
        · exact absurd hx2 hbad
        · exact ⟨x, hx, hx2⟩
      simp [forEach, h1, ih s1 hrest]

/-- The second loop can only fail by an access outside a buffer. -/
theorem SUPERMATRIX.place_all_error (a : List (NumericMatrix α)) :
    ∀ (s : SUPERMATRIX.Fill α) (e : Err), forEach a SUPERMATRIX.place s = .error e →
      e = Err.outOfBounds := by
  induction a with
  | nil => intro s e h; simp [forEach] at h
  | cons m ms ih =>
    intro s e h
    simp only [forEach] at h
    cases hp : SUPERMATRIX.place m s with
    | ok t => rw [hp] at h; exact ih t e h
    | error e2 =>
      rw [hp] at h
      cases h
      unfold SUPERMATRIX.place at hp
      split at hp
      · cases hp
      · rename_i e3 he3
        cases hp
        refine forLoop_error (fun e => e = Err.outOfBounds) ?_ he3
        intro j ret e4 h4
        refine forLoop_error (fun e => e = Err.outOfBounds) ?_ h4
        intro k ret2 e5 h5
        split at h5
        · rename_i v _
          cases hset : ret2.set? (s.totrow + j) (s.totcol + k) v with
          | none => rw [hset] at h5; simp [orFail] at h5; exact h5.symm
          | some z => rw [hset] at h5; simp [orFail] at h5
        · cases h5; rfl

end Scan

section SuperCore

variable {α : Type}

theorem mem_of_getElem?_eq {β : Type} {l : List β} {i : Nat} {x : β} (h : l[i]? = some x) :
    x ∈ l := by
  obtain ⟨hi, rfl⟩ := List.getElem?_eq_some.mp h
  exact List.getElem_mem _

/-- `SUPERMATRIX` on a list of square matrices (an empty one being `0 × 0`): the
result is the block-diagonal matrix of the non-empty elements, with the labels of
the first loop when `keep_names` is set. -/
theorem SUPERMATRIX_square_core [Zero α] (a : List (NumericMatrix α)) (keep_names : Bool)
    (hall : ∀ m ∈ a, m.WF ∧ m.nrow = m.ncol) :
    ∃ ret, SUPERMATRIX a keep_names = .ok ret ∧
      ret.nrow = totalDim a ∧ ret.ncol = totalDim a ∧ ret.WF ∧
      (keep_names = true → ret.dimnames = some (some (rowLabels a), some (colLabels a))) ∧
      (keep_names = false → ret.dimnames = none) ∧
      ∀ r c, r < totalDim a → c < totalDim a →
        (∀ i m, a[i]? = some m → m.nrow ≠ 0 →
          inRange (blockOffset a i) m.nrow r → inRange (blockOffset a i) m.nrow c →
          ret.get? r c = m.get? (r - blockOffset a i) (c - blockOffset a i)) ∧
        ((∀ i m, a[i]? = some m → m.nrow ≠ 0 →
            ¬ (inRange (blockOffset a i) m.nrow r ∧ inRange (blockOffset a i) m.nrow c)) →
          ret.get? r c = some 0) := by
  obtain ⟨nm, hscan, htot, hlab, hnolab⟩ :=
    SUPERMATRIX.scan_all_ok keep_names a SUPERMATRIX.names0 (fun m hm _ => (hall m hm).2)
  have htot2 : nm.tot = totalDim a := by simpa [SUPERMATRIX.names0] using htot
  obtain ⟨f, hplace, fnr, fnc, fwf, fdn, fcell⟩ :=
    SUPERMATRIX.place_all a
      { ret := NumericMatrix.zeros nm.tot nm.tot, totrow := 0, totcol := 0 }
      (fun m hm => (hall m hm).1) (NumericMatrix.zeros_WF _ _)
      (by simp [NumericMatrix.zeros, htot2, totalDim_eq_sumRows])
      (by simp [NumericMatrix.zeros, htot2,
            totalDim_eq_sumCols a (fun m hm => (hall m hm).2)])
  simp only [NumericMatrix.zeros, Nat.zero_add] at fnr fnc fdn fcell
  have hoffR : ∀ i, sumRows (a.take i) = blockOffset a i := fun i =>
    (totalDim_eq_sumRows _).symm
  have hoffC : ∀ i, sumCols (a.take i) = blockOffset a i := fun i =>
    (totalDim_eq_sumCols _ (fun m hm => (hall m (List.mem_of_mem_take hm)).2)).symm
  have hentries : ∀ r c, r < totalDim a → c < totalDim a →
      (∀ i m, a[i]? = some m → m.nrow ≠ 0 →
        inRange (blockOffset a i) m.nrow r → inRange (blockOffset a i) m.nrow c →
        f.ret.get? r c = m.get? (r - blockOffset a i) (c - blockOffset a i)) ∧
      ((∀ i m, a[i]? = some m → m.nrow ≠ 0 →
          ¬ (inRange (blockOffset a i) m.nrow r ∧ inRange (blockOffset a i) m.nrow c)) →
        f.ret.get? r c = some 0) := by
    intro r c hr hc
    obtain ⟨g1, g2⟩ := fcell r c (by omega)
    constructor
    · intro i m hm _ hrr hcc
      have := g1 i m hm (by rw [hoffR]; exact hrr)
        (by rw [hoffC, ← (hall m (mem_of_getElem?_eq hm)).2]; exact hcc)
      rw [hoffR, hoffC] at this
      exact this
    · intro hfree
      rw [g2 (fun i m hm hin => by
        rw [hoffR, hoffC, ← (hall m (mem_of_getElem?_eq hm)).2] at hin
        have h0 : m.nrow ≠ 0 := by
          intro h0
          have := hin.1
          simp only [inRange] at this
          omega
        exact hfree i m hm h0 hin)]
      have := @NumericMatrix.zeros_get? α _ nm.tot nm.tot r c (by omega) (by omega)
      simpa [NumericMatrix.zeros] using this
  cases keep_names with
  | false =>
    refine ⟨f.ret, by simp [SUPERMATRIX, hscan, hplace], by omega, by omega, fwf,
      fun h => Bool.noConfusion h, fun _ => fdn, hentries⟩
  | true =>
    refine ⟨{ f.ret with dimnames := some (some nm.rnam, some nm.cnam) },
      by simp [SUPERMATRIX, hscan, hplace], by simpa using (by omega : f.ret.nrow = totalDim a),
      by simpa using (by omega : f.ret.ncol = totalDim a), fwf, fun _ => ?_,
      fun h => Bool.noConfusion h, hentries⟩
    have := hlab rfl
    simp only [SUPERMATRIX.names0, List.nil_append] at this
    simp [this.1, this.2]

theorem rowLabelsOf_length (m : NumericMatrix α) (h : m.LabelsOK) :
    (rowLabelsOf m).length = m.nrow := by
  unfold rowLabelsOf
  unfold NumericMatrix.LabelsOK at h
  rcases hd : m.dimnames with _ | ⟨_ | rn, cn⟩ <;> simp [hd] at h ⊢
  exact h.1

theorem colLabelsOf_length (m : NumericMatrix α) (h : m.LabelsOK) :
    (colLabelsOf m).length = m.ncol := by
  unfold colLabelsOf
  unfold NumericMatrix.LabelsOK at h
  rcases hd : m.dimnames with _ | ⟨rn, _ | cn⟩ <;> simp [hd] at h ⊢
  exact h.2

theorem rowLabels_length (a : List (NumericMatrix α)) (h : ∀ m ∈ a, m.LabelsOK) :
    (rowLabels a).length = totalDim a := by
  induction a with
  | nil => rfl
  | cons m ms ih =>
    have ih2 := ih (fun x hx => h x (List.mem_cons_of_mem _ hx))
    have hm := rowLabelsOf_length m (h m (List.mem_cons_self _ _))
    unfold rowLabels at ih2 ⊢
    rw [totalDim_cons, nonEmpty_cons]
    by_cases h0 : m.nrow = 0
    · simp [h0, ih2]
    · simp [h0, ih2, hm]

theorem colLabels_length (a : List (NumericMatrix α))
    (h : ∀ m ∈ a, m.LabelsOK ∧ m.nrow = m.ncol) : (colLabels a).length = totalDim a := by
  induction a with
  | nil => rfl
  | cons m ms ih =>
    have ih2 := ih (fun x hx => h x (List.mem_cons_of_mem _ hx))
    have hm := colLabelsOf_length m (h m (List.mem_cons_self _ _)).1
    have hsq := (h m (List.mem_cons_self _ _)).2
    unfold colLabels at ih2 ⊢
    rw [totalDim_cons, nonEmpty_cons]
    by_cases h0 : m.nrow = 0
    · simp [h0, ih2]
    · simp [h0, ih2, hm, hsq.symm]

/-- Zero-row elements that also have zero columns are invisible to both loops. -/
theorem forEach_scan_nonEmpty (k : Bool) (a : List (NumericMatrix α)) :
    ∀ s, forEach a (SUPERMATRIX.scan k) s = forEach (nonEmpty a) (SUPERMATRIX.scan k) s := by
  induction a with
  | nil => intro s; rfl
  | cons m ms ih =>
    intro s
    rw [nonEmpty_cons]
    by_cases h0 : m.nrow = 0
    · simp [forEach, SUPERMATRIX.scan, h0, ih]
    · simp only [h0, ne_eq, not_false_eq_true, ↓reduceIte, forEach]
      cases SUPERMATRIX.scan k m s <;> simp [ih]

theorem forEach_place_nonEmpty (a : List (NumericMatrix α))
    (h : ∀ m ∈ a, m.nrow = 0 → m.ncol = 0) :
    ∀ s, forEach a SUPERMATRIX.place s = forEach (nonEmpty a) SUPERMATRIX.place s := by
  induction a with
  | nil => intro s; rfl
  | cons m ms ih =>
    intro s
    have ih2 := ih (fun x hx => h x (List.mem_cons_of_mem _ hx))
    rw [nonEmpty_cons]
    by_cases h0 : m.nrow = 0
    · have hc := h m (List.mem_cons_self _ _) h0
      simp [forEach, SUPERMATRIX.place, forLoop, h0, hc, ih2]
    · simp only [h0, ne_eq, not_false_eq_true, ↓reduceIte, forEach]
      cases SUPERMATRIX.place m s <;> simp [ih2]

/-- Where every zero-row element of the list is `0 × 0`, removing the empty
elements changes nothing in the outcome of `SUPERMATRIX`. -/
theorem SUPERMATRIX_skip_empty [Zero α] (a : List (NumericMatrix α)) (keep_names : Bool)
    (h : ∀ m ∈ a, m.nrow = 0 → m.ncol = 0) :
    SUPERMATRIX a keep_names = SUPERMATRIX (nonEmpty a) keep_names := by
  unfold SUPERMATRIX
  rw [forEach_scan_nonEmpty]
  cases forEach (nonEmpty a) (SUPERMATRIX.scan keep_names) SUPERMATRIX.names0 with
  | error e => rfl
  | ok nm => simp only [forEach_place_nonEmpty a h]

end SuperCore

/-! ## `EXPAND_EVENTS` -/

section Expand

variable {α : Type}

/-- One output row: the template row is copied, then the identifier is stamped. -/
theorem EXPAND_EVENTS.row_spec (events : NumericMatrix α) (id : List α) (idcol i j : Nat)
    (s : EXPAND_EVENTS.Cursor α) (idi : α) (hwf : events.WF) (hj : j < events.nrow)
    (hs : s.ans.WF) (hcrow : s.crow < s.ans.nrow) (hC : events.ncol ≤ s.ans.ncol)
    (hid : idcol < s.ans.ncol) (hidi : id[i]? = some idi) :
    ∃ t, EXPAND_EVENTS.row events id idcol i j s = .ok t ∧ t.crow = s.crow + 1 ∧
      t.ans.nrow = s.ans.nrow ∧ t.ans.ncol = s.ans.ncol ∧ t.ans.WF ∧
      t.ans.dimnames = s.ans.dimnames ∧
      t.ans.get? s.crow idcol = some idi ∧
      (∀ c, c < events.ncol → c ≠ idcol → t.ans.get? s.crow c = events.get? j c) ∧
      (∀ r c, r < s.ans.nrow → r ≠ s.crow → t.ans.get? r c = s.ans.get? r c) := by
  obtain ⟨ans1, hrun, h1, h2, h3, h4, h5, h6⟩ := forLoop_inv
    (fun k z => z.nrow = s.ans.nrow ∧ z.ncol = s.ans.ncol ∧ z.WF ∧
      z.dimnames = s.ans.dimnames ∧
      (∀ c, c < k → z.get? s.crow c = events.get? j c) ∧
      (∀ r c, r < s.ans.nrow → r ≠ s.crow → z.get? r c = s.ans.get? r c))
    (events.ncol)
    (fun k ans =>
      match events.get? j k with
      | some v => orFail Err.outOfBounds (ans.set? s.crow k v)
      | none => .error Err.outOfBounds)
    (s.ans)
    ⟨rfl, rfl, hs, rfl, fun c hc => absurd hc (by omega), fun _ _ _ _ => rfl⟩
    (by
      intro k z hk ⟨z1, z2, z3, z4, z5, z6⟩
      obtain ⟨v, hv⟩ := NumericMatrix.get?_isSome hwf hj hk
      obtain ⟨z', hset, g1, g2, g3, g4, gnew, gframe⟩ :=
        NumericMatrix.set?_spec z3 (i := s.crow) (j := k) (by omega) (by omega) v
      refine ⟨z', by simp [hv, hset, orFail], by omega, by omega, g3, by rw [g4, z4], ?_, ?_⟩
      · intro c hc
        by_cases hck : c = k
        · rw [hck, gnew, hv]
        · rw [gframe s.crow c (by omega) (Or.inr hck)]
          exact z5 c (by omega)
      · intro r c hr hne
        rw [gframe r c (by omega) (Or.inl hne)]
        exact z6 r c hr hne)
  obtain ⟨ans2, hset, g1, g2, g3, g4, gnew, gframe⟩ :=
    NumericMatrix.set?_spec h3 (i := s.crow) (j := idcol) (by omega) (by omega) idi
  refine ⟨⟨ans2, s.crow + 1⟩, by simp [EXPAND_EVENTS.row, hrun, hidi, hset], rfl, g1.trans h1,
    g2.trans h2, g3, g4.trans h4, gnew, ?_, ?_⟩
  · intro c hc hne
    rw [gframe s.crow c (by omega) (Or.inr hne)]
    exact h5 c hc
  · intro r c hr hne
    rw [gframe r c (by omega) (Or.inl hne)]
    exact h6 r c hr hne

theorem row_index_lt {R M i j : Nat} (hi : i < M) (hj : j < R) : i * R + j < R * M := by
  calc i * R + j < i * R + R := by omega
    _ = (i + 1) * R := by ring
    _ ≤ M * R := Nat.mul_le_mul_right R hi
    _ = R * M := Nat.mul_comm _ _

theorem row_index_div {R i j : Nat} (hj : j < R) : (i * R + j) / R = i := by
  rw [Nat.add_comm, Nat.add_mul_div_right _ _ (by omega : 0 < R), Nat.div_eq_of_lt hj]
  omega

theorem row_index_mod {R i j : Nat} (hj : j < R) : (i * R + j) % R = j := by
  rw [Nat.add_comm, Nat.add_mul_mod_self_right, Nat.mod_eq_of_lt hj]

/-- The two outer loops of `EXPAND_EVENTS`: all `R * M` rows get written. -/
theorem EXPAND_EVENTS.loops_spec [Zero α] (events : NumericMatrix α) (id : List α)
    (idcol ncol_new : Nat) (hwf : events.WF) (hC : events.ncol ≤ ncol_new)
    (hid : idcol < ncol_new) :
    ∃ t, forLoop id.length (fun i s =>
          forLoop events.nrow (fun j s => EXPAND_EVENTS.row events id idcol i j s) s)
          { ans := NumericMatrix.zeros (events.nrow * id.length) ncol_new, crow := 0 } = .ok t ∧
      EXPAND_EVENTS.Filled events id idcol ncol_new (id.length * events.nrow) t := by
  have step : ∀ i, i < id.length → ∀ j, j < events.nrow → ∀ s,
      EXPAND_EVENTS.Filled events id idcol ncol_new (i * events.nrow + j) s →
      ∃ t, EXPAND_EVENTS.row events id idcol i j s = .ok t ∧
        EXPAND_EVENTS.Filled events id idcol ncol_new (i * events.nrow + (j + 1)) t := by
    intro i hi j hj s ⟨f1, f2, f3, f4, f5, f6⟩
    have hlt := row_index_lt hi hj
    obtain ⟨idi, hidi⟩ : ∃ idi, id[i]? = some idi := ⟨id[i], by simp [hi]⟩
    obtain ⟨t, hrun, g1, g2, g3, g4, g5, g6, g7, g8⟩ :=
      EXPAND_EVENTS.row_spec events id idcol i j s idi hwf hj f4 (by omega) (by omega)
        (by omega) hidi
    refine ⟨t, hrun, by omega, by omega, by omega, g4, by rw [g5, f5], ?_⟩
    intro r hr
    by_cases hrc : r = i * events.nrow + j
    · rw [hrc, row_index_div hj, row_index_mod hj, ← f1, hidi]
      exact ⟨g6, g7⟩
    · have hr2 : r < i * events.nrow + j := by omega
      obtain ⟨q1, q2⟩ := f6 r hr2
      refine ⟨?_, fun c hc hne => ?_⟩
      · rw [g8 r idcol (by omega) (by omega)]; exact q1
      · rw [g8 r c (by omega) (by omega)]; exact q2 c hc hne
  obtain ⟨t, hrun, hP⟩ := forLoop_inv
    (fun i s => EXPAND_EVENTS.Filled events id idcol ncol_new (i * events.nrow) s)
    (id.length)
    (fun i s =>
      forLoop events.nrow (fun j s => EXPAND_EVENTS.row events id idcol i j s) s)
    ({ ans := NumericMatrix.zeros (events.nrow * id.length) ncol_new, crow := 0 })
    ⟨by simp, rfl, rfl, NumericMatrix.zeros_WF _ _, rfl, fun r hr => absurd hr (by omega)⟩
    (by
      intro i s hi hs
      obtain ⟨t, hrun, hP⟩ := forLoop_inv
        (fun j s => EXPAND_EVENTS.Filled events id idcol ncol_new (i * events.nrow + j) s)
        (events.nrow)
        (fun j s => EXPAND_EVENTS.row events id idcol i j s)
        (s) (by simpa using hs) (fun j s hj hs => step i hi j hj s hs)
      refine ⟨t, hrun, ?_⟩
      have e : (i + 1) * events.nrow = i * events.nrow + events.nrow := by ring
      show EXPAND_EVENTS.Filled events id idcol ncol_new ((i + 1) * events.nrow) t
      rw [e]; exact hP)
  exact ⟨t, hrun, hP⟩

/-- `EXPAND_EVENTS` on a template with column labels, for an identifier column that
is absent (`idcol_[0] - 1 < 0`) or inside the template. -/
theorem EXPAND_EVENTS_core [Zero α] (idcol_ : List Int) (events : NumericMatrix α)
    (id : List α) (v : Int) (rn : Option (List String)) (names : List String)
    (hv : idcol_[0]? = some v) (hwf : events.WF)
    (hdn : events.dimnames = some (rn, some names))
    (hcol : v - 1 < 0 ∨ (0 ≤ v - 1 ∧ v - 1 < events.ncol)) :
    ∃ ans, EXPAND_EVENTS idcol_ events id = .ok ans ∧
      ans.nrow = events.nrow * id.length ∧
      ans.ncol = (if v - 1 < 0 then events.ncol + 1 else events.ncol) ∧ ans.WF ∧
      ans.dimnames = some (some [], some (if v - 1 < 0 then names ++ ["ID"] else names)) ∧
      ∀ i j, i < id.length → j < events.nrow →
        ans.get? (i * events.nrow + j) (EXPAND_EVENTS.idColumn v events.ncol) = id[i]? ∧
        ∀ k, k < events.ncol → k ≠ EXPAND_EVENTS.idColumn v events.ncol →
          ans.get? (i * events.nrow + j) k = events.get? j k := by
  have finish : ∀ (idcol ncol_new : Nat) (names2 : List String),
      events.ncol ≤ ncol_new → idcol < ncol_new →
      ∃ ans,
        (match forLoop id.length (fun i s =>
            forLoop events.nrow (fun j s => EXPAND_EVENTS.row events id idcol i j s) s)
            { ans := NumericMatrix.zeros (events.nrow * id.length) ncol_new, crow := 0 } with
          | Except.error e => Except.error e
          | Except.ok s => (Except.ok { s.ans with dimnames := some (some [], some names2) } :
              Except Err (NumericMatrix α))) = Except.ok ans ∧
        ans.nrow = events.nrow * id.length ∧ ans.ncol = ncol_new ∧ ans.WF ∧
        ans.dimnames = some (some [], some names2) ∧
        ∀ i j, i < id.length → j < events.nrow →
          ans.get? (i * events.nrow + j) idcol = id[i]? ∧
          ∀ k, k < events.ncol → k ≠ idcol →
            ans.get? (i * events.nrow + j) k = events.get? j k := by
    intro idcol ncol_new names2 hC hid
    obtain ⟨t, hrun, f1, f2, f3, f4, f5, f6⟩ :=
      EXPAND_EVENTS.loops_spec events id idcol ncol_new hwf hC hid
    refine ⟨{ t.ans with dimnames := some (some [], some names2) }, by rw [hrun], f2, f3, f4,
      rfl, ?_⟩
    intro i j hi hj
    have hlt : i * events.nrow + j < id.length * events.nrow := by
      have := row_index_lt hi hj
      rw [Nat.mul_comm events.nrow id.length] at this
      exact this
    obtain ⟨q1, q2⟩ := f6 _ hlt
    rw [row_index_div hj] at q1
    refine ⟨q1, fun k hk hne => ?_⟩
    have := q2 k hk hne
    rw [row_index_mod hj] at this
    exact this
  unfold EXPAND_EVENTS
  simp only [hv, hdn]
  rcases hcol with hneg | ⟨hpos, hlt⟩
  · simp only [hneg, ↓reduceIte, EXPAND_EVENTS.idColumn, Nat.add_sub_cancel]
    exact finish events.ncol (events.ncol + 1) (names ++ ["ID"]) (by omega) (by omega)
  · have hn : ¬ v - 1 < 0 := by omega
    simp only [hn, ↓reduceIte, EXPAND_EVENTS.idColumn]
    exact finish (v - 1).toNat events.ncol names (by omega) (by omega)

end Expand

section ExpandShape

variable {α : Type}

/-- A property that every successful iteration keeps is kept by the loop. -/
theorem forLoop_preserve {ε σ : Type} (Q : σ → Prop) (n : Nat) (body : Nat → σ → Except ε σ)
    (hbody : ∀ i s t, Q s → body i s = .ok t → Q t) :
    ∀ s t, Q s → forLoop n body s = .ok t → Q t := by
  induction n with
  | zero =>
    intro s t hs h
    simp only [forLoop, Except.ok.injEq] at h
    exact h ▸ hs
  | succ k ih =>
    intro s t hs h
    simp only [forLoop] at h
    cases hk : forLoop k body s with
    | error e => rw [hk] at h; cases h
    | ok u => rw [hk] at h; exact hbody k u t (ih s u hs hk) h

theorem NumericMatrix.set?_shape {m m2 : NumericMatrix α} {i j : Nat} {v : α}
    (h : m.set? i j v = some m2) : m2.nrow = m.nrow ∧ m2.ncol = m.ncol := by
  unfold NumericMatrix.set? at h
  split at h
  · cases h; exact ⟨rfl, rfl⟩
  · cases h

/-- Writing one output row does not change the extents of `ans`. -/
theorem EXPAND_EVENTS.row_shape (events : NumericMatrix α) (id : List α) (idcol i j : Nat)
    (s t : EXPAND_EVENTS.Cursor α) (h : EXPAND_EVENTS.row events id idcol i j s = .ok t) :
    t.ans.nrow = s.ans.nrow ∧ t.ans.ncol = s.ans.ncol := by
  unfold EXPAND_EVENTS.row at h
  split at h
  · cases h
  · rename_i ans1 hloop
    have h1 := forLoop_preserve
      (fun z : NumericMatrix α => z.nrow = s.ans.nrow ∧ z.ncol = s.ans.ncol) events.ncol _
      (by
        intro k z z2 hz hb
        cases hg : events.get? j k with
        | none => simp [hg] at hb
        | some v =>
          cases hs : z.set? s.crow k v with
          | none => simp [hg, hs, orFail] at hb
          | some z3 =>
            simp only [hg, hs, orFail, Except.ok.injEq] at hb
            have := NumericMatrix.set?_shape hs
            rw [← hb]
            exact ⟨this.1.trans hz.1, this.2.trans hz.2⟩)
      s.ans ans1 ⟨rfl, rfl⟩ hloop
    split at h
    · cases h
    · split at h
      · cases h
      · rename_i ans2 hset
        cases h
        have := NumericMatrix.set?_shape hset
        exact ⟨this.1.trans h1.1, this.2.trans h1.2⟩

/-- Whenever `EXPAND_EVENTS` returns, the table has `R * M` rows, the template's
column count plus one exactly when `idcol_[0] - 1` is negative, an empty row-label
vector, and as column labels those of the template, followed by `"ID"` exactly when
`idcol_[0] - 1` is negative. -/
theorem EXPAND_EVENTS_ok_shape [Zero α] (idcol_ : List Int) (events : NumericMatrix α)
    (id : List α) (ans : NumericMatrix α) (h : EXPAND_EVENTS idcol_ events id = .ok ans) :
    ∃ v rn names, idcol_[0]? = some v ∧ events.dimnames = some (rn, some names) ∧
      ans.nrow = events.nrow * id.length ∧
      ans.ncol = (if v - 1 < 0 then events.ncol + 1 else events.ncol) ∧
      ans.dimnames = some (some [], some (if v - 1 < 0 then names ++ ["ID"] else names)) := by
  unfold EXPAND_EVENTS at h
  split at h
  · cases h
  · rename_i v hv
    split at h
    · cases h
    · cases h
    · rename_i rn names hdn
      simp only at h
      split at h
      · cases h
      · rename_i s hloop
        cases h
        have hs := forLoop_preserve
          (fun c : EXPAND_EVENTS.Cursor α => c.ans.nrow = events.nrow * id.length ∧
            c.ans.ncol = (if v - 1 < 0 then events.ncol + 1 else events.ncol))
          id.length _
          (fun i c c2 hc hb => forLoop_preserve
            (fun c : EXPAND_EVENTS.Cursor α => c.ans.nrow = events.nrow * id.length ∧
              c.ans.ncol = (if v - 1 < 0 then events.ncol + 1 else events.ncol))
            events.nrow _
            (fun j d d2 hd hb2 => by
              have := EXPAND_EVENTS.row_shape events id _ i j d d2 hb2
              exact ⟨this.1.trans hd.1, this.2.trans hd.2⟩)
            c c2 hc hb)
          _ s ⟨rfl, rfl⟩ hloop
        exact ⟨v, rn, names, hv, hdn, hs.1, hs.2, rfl⟩

end ExpandShape

/-! ## Worked inputs -/

/-- The rewrite of `[[4, 0.5], [0.5, 9]]`: both off-diagonal entries become
`0.5 * sqrt (4 * 9) = 3`, the diagonal stays `4`, `9`. -/
theorem decorr_example :
    decorr Rat.sqrt ex_corr = .ok { nrow := 2, ncol := 2, data := [4, 3, 3, 9] } := by
  have h36 : Rat.sqrt 36 = 6 := by norm_num [Rat.sqrt]
  simp [decorr, forLoop, decorr.cell, ex_corr, NumericMatrix.get?, NumericMatrix.set?,
    NumericMatrix.offset, orFail]
  norm_num [h36]

set_option maxRecDepth 100000 in
/-- Sizes `[2,3,0,1]` give a `6 × 6` result with the blocks at offsets 0, 2 and 5,
zeros elsewhere, and six row and six column labels. -/
theorem SUPERMATRIX_example :
    SUPERMATRIX ex_blocks true = .ok
      { nrow := 6, ncol := 6,
        data := [1, 2, 0, 0, 0, 0,
                 3, 4, 0, 0, 0, 0,
                 0, 0, 11, 12, 13, 0,
                 0, 0, 14, 15, 16, 0,
                 0, 0, 17, 18, 19, 0,
                 0, 0, 0, 0, 0, 7],
        dimnames := some (some ["a", "b", ".", ".", ".", "r"],
                          some [".", ".", ".", ".", ".", "c"]) } ∧
    blockOffset ex_blocks 0 = 0 ∧ blockOffset ex_blocks 1 = 2 ∧ blockOffset ex_blocks 3 = 5 := by
  decide

/-- Three template rows without identifier column and the identifiers `[101, 102]`:
six rows, one more column, rows 0-2 stamped `101`, rows 3-5 stamped `102`. -/
theorem EXPAND_EVENTS_example :
    EXPAND_EVENTS [0] ex_events [101, 102] = .ok
      { nrow := 6, ncol := 3,
        data := [0, 12, 24, 0, 12, 24,
                 100, 50, 50, 100, 50, 50,
                 101, 101, 101, 102, 102, 102],
        dimnames := some (some [], some ["time", "amt", "ID"]) } := by
  decide

/-! ## The claims -/

section Claims

variable {α : Type}

/-- C1 (fails on the code): the list `[0 × 1, 1 × 1]` satisfies the hypothesis of the
claim (its only matrix with rows is square) and the claim promises the `1 × 1`
result `[5]`; the second loop of `SUPERMATRIX` advances `totcol` by the column count
of the zero-row element and then writes `ret(0, 1)` outside the `1 × 1` buffer. -/
theorem SUPERMATRIX_zero_row_element_out_of_bounds :
    (∀ m ∈ ex_shift1, m.WF) ∧ (∀ m ∈ ex_shift1, m.nrow ≠ 0 → m.nrow = m.ncol) ∧
    totalDim ex_shift1 = 1 ∧
    SUPERMATRIX ex_shift1 false = .error Err.outOfBounds ∧
    SUPERMATRIX ex_shift1 true = .error Err.outOfBounds := by
  decide

/-- C2: `SUPERMATRIX` fails with "Not all matrices are square" exactly when some
element with rows has different row and column counts; the failure then already
occurs in the first loop, before the output matrix exists, and no matrix is
returned. -/
theorem SUPERMATRIX_not_square_iff [Zero α] (a : List (NumericMatrix α)) (keep_names : Bool) :
    (SUPERMATRIX a keep_names = .error (Err.stop "Not all matrices are square") ↔
      ∃ m ∈ a, m.nrow ≠ 0 ∧ m.nrow ≠ m.ncol) ∧
    ((∃ m ∈ a, m.nrow ≠ 0 ∧ m.nrow ≠ m.ncol) →
      forEach a (SUPERMATRIX.scan keep_names) SUPERMATRIX.names0 =
        .error (Err.stop "Not all matrices are square") ∧
      ∀ ret, SUPERMATRIX a keep_names ≠ .ok ret) := by
  have hfail : (∃ m ∈ a, m.nrow ≠ 0 ∧ m.nrow ≠ m.ncol) →
      SUPERMATRIX a keep_names = .error (Err.stop "Not all matrices are square") := by
    intro h
    simp [SUPERMATRIX, SUPERMATRIX.scan_all_error keep_names a SUPERMATRIX.names0 h]
  refine ⟨⟨fun h => ?_, hfail⟩, fun h =>
    ⟨SUPERMATRIX.scan_all_error keep_names a SUPERMATRIX.names0 h, fun ret hret => ?_⟩⟩
  · by_contra hno
    obtain ⟨nm, hscan, _⟩ := SUPERMATRIX.scan_all_ok keep_names a SUPERMATRIX.names0
      (fun m hm h0 => by
        by_contra hne
        exact hno ⟨m, hm, h0, hne⟩)
    unfold SUPERMATRIX at h
    rw [hscan] at h
    simp only at h
    cases hp : forEach a SUPERMATRIX.place
        { ret := NumericMatrix.zeros nm.tot nm.tot, totrow := 0, totcol := 0 } with
    | ok f => rw [hp] at h; cases h
    | error e =>
      rw [hp] at h
      have := SUPERMATRIX.place_all_error a _ e hp
      rw [this] at h
      cases h
  · rw [hfail h] at hret
    cases hret

/-- The preceding theorem applied to a list with a `1 × 2` element. -/
theorem SUPERMATRIX_not_square_iff_witness :
    (∃ m ∈ ex_notsquare, m.nrow ≠ 0 ∧ m.nrow ≠ m.ncol) ∧
    SUPERMATRIX ex_notsquare true = .error (Err.stop "Not all matrices are square") :=
  ⟨by decide, (SUPERMATRIX_not_square_iff ex_notsquare true).1.2 (by decide)⟩

/-- C3: for square matrices whose label vectors, where present, have the length of
the dimension, `SUPERMATRIX` with `keep_names = true` returns as row labels the
concatenation over the non-empty matrices of their row labels, or of `dim` copies
of `"."` for a matrix without row labels; likewise for the column labels; both
have the length of the output dimension. -/
theorem SUPERMATRIX_labels [Zero α] (a : List (NumericMatrix α))
    (hall : ∀ m ∈ a, m.WF ∧ m.nrow = m.ncol ∧ m.LabelsOK) :
    ∃ ret, SUPERMATRIX a true = .ok ret ∧
      ret.nrow = totalDim a ∧ ret.ncol = totalDim a ∧
      ret.dimnames = some (some (rowLabels a), some (colLabels a)) ∧
      rowLabels a = (nonEmpty a).flatMap (fun m =>
        match m.dimnames with
        | some (some l, _) => l
        | _ => List.replicate m.nrow ".") ∧
      colLabels a = (nonEmpty a).flatMap (fun m =>
        match m.dimnames with
        | some (_, some l) => l
        | _ => List.replicate m.nrow ".") ∧
      (rowLabels a).length = ret.nrow ∧ (colLabels a).length = ret.ncol := by
  obtain ⟨ret, hrun, hr, hc, _, hdn, _, _⟩ :=
    SUPERMATRIX_square_core a true (fun m hm => ⟨(hall m hm).1, (hall m hm).2.1⟩)
  refine ⟨ret, hrun, hr, hc, hdn rfl, rfl, ?_, ?_, ?_⟩
  · unfold colLabels
    apply List.flatMap_congr
    intro m hm
    have hm2 : m ∈ a := (List.mem_filter.mp hm).1
    unfold colLabelsOf
    rw [(hall m hm2).2.1]
  · rw [hr]; exact rowLabels_length a (fun m hm => (hall m hm).2.2)
  · rw [hc]; exact colLabels_length a (fun m hm => ⟨(hall m hm).2.2, (hall m hm).2.1⟩)

/-- The preceding theorem applied to the list of sizes `[2,3,0,1]`. -/
theorem SUPERMATRIX_labels_witness :
    (∀ m ∈ ex_blocks, m.WF ∧ m.nrow = m.ncol ∧ m.LabelsOK) ∧
    ∃ ret, SUPERMATRIX ex_blocks true = .ok ret ∧
      ret.nrow = totalDim ex_blocks ∧ ret.ncol = totalDim ex_blocks ∧
      ret.dimnames = some (some (rowLabels ex_blocks), some (colLabels ex_blocks)) ∧
      rowLabels ex_blocks = (nonEmpty ex_blocks).flatMap (fun m =>
        match m.dimnames with
        | some (some l, _) => l
        | _ => List.replicate m.nrow ".") ∧
      colLabels ex_blocks = (nonEmpty ex_blocks).flatMap (fun m =>
        match m.dimnames with
        | some (_, some l) => l
        | _ => List.replicate m.nrow ".") ∧
      (rowLabels ex_blocks).length = ret.nrow ∧ (colLabels ex_blocks).length = ret.ncol :=
  have h : ∀ m ∈ ex_blocks, m.WF ∧ m.nrow = m.ncol ∧ m.LabelsOK := by
    simp [ex_blocks, NumericMatrix.WF, NumericMatrix.LabelsOK]
  ⟨h, SUPERMATRIX_labels ex_blocks h⟩

/-- C4 (fails on the code): the first element of `[0 × 3, 2 × 2]` has no rows, so
the first loop skips it, and without it `SUPERMATRIX` returns the `2 × 2` matrix;
with it the second loop leaves `totrow = 0` but moves `totcol` to `3`, and the copy
of the `2 × 2` block then writes outside the output. -/
theorem SUPERMATRIX_zero_row_element_shifts_totcol :
    nonEmpty ex_shift3 = [{ nrow := 2, ncol := 2, data := [1, 2, 3, 4] }] ∧
    SUPERMATRIX (nonEmpty ex_shift3) false = .ok { nrow := 2, ncol := 2, data := [1, 2, 3, 4] } ∧
    forEach (ex_shift3.take 1) SUPERMATRIX.place
        { ret := NumericMatrix.zeros 2 2, totrow := 0, totcol := 0 } =
      .ok { ret := NumericMatrix.zeros 2 2, totrow := 0, totcol := 3 } ∧
    SUPERMATRIX ex_shift3 false = .error Err.outOfBounds ∧
    SUPERMATRIX ex_shift3 true = .error Err.outOfBounds := by
  decide

end Claims

section ClaimsDecorr

variable {α : Type} [Mul α]

/-- C5: on a square matrix `decorr` returns, and the matrix it leaves has the
diagonal of `x` and, off the diagonal, `x(i,j) * sqrt (x(i,i) * x(j,j))` computed
from the original entries of `x`: the in-place loop agrees with the simultaneous
rewrite `decorr_spec`. -/
theorem decorr_eq_simultaneous (sqrt : α → α) (x : NumericMatrix α) (hwf : x.WF)
    (hsq : x.nrow = x.ncol) :
    ∃ y, decorr sqrt x = .ok y ∧ y.nrow = x.nrow ∧ y.ncol = x.ncol ∧ y.WF ∧
      y.dimnames = x.dimnames ∧
      ∀ i j, i < x.nrow → j < x.nrow →
        y.get? i j = decorr_spec sqrt x i j ∧
        ∃ xij xii xjj, x.get? i j = some xij ∧ x.get? i i = some xii ∧
          x.get? j j = some xjj ∧
          y.get? i j = some (if i = j then xii else xij * sqrt (xii * xjj)) := by
  obtain ⟨y, hrun, h1, h2, h3, h4, h5⟩ := forLoop_inv
    (fun i z => decorr.Partial sqrt x (fun r _ => r < i) z)
    (x.nrow)
    (fun i x2 => forLoop x.nrow (fun j x3 => decorr.cell sqrt i j x3) x2)
    (x)
    ⟨rfl, rfl, hwf, rfl, fun r c _ _ => ⟨fun h => absurd h (by omega), fun _ => rfl⟩⟩
    (fun i z hi hz => decorr.row_step sqrt x hwf hsq i hi z hz)
  have hne : ¬ (x.nrow ≠ x.ncol) := fun h => h hsq
  refine ⟨y, by simp only [decorr, hne, ↓reduceIte]; exact hrun, h1, h2, h3, h4, ?_⟩
  intro i j hi hj
  have hy := (h5 i j hi hj).1 hi
  obtain ⟨xij, hxij⟩ := NumericMatrix.get?_isSome hwf hi (hsq ▸ hj)
  obtain ⟨xii, hxii⟩ := NumericMatrix.get?_isSome hwf hi (hsq ▸ hi)
  obtain ⟨xjj, hxjj⟩ := NumericMatrix.get?_isSome hwf hj (hsq ▸ hj)
  refine ⟨hy, xij, xii, xjj, hxij, hxii, hxjj, ?_⟩
  rw [hy]
  by_cases hij : i = j
  · subst hij
    simp [decorr_spec, hxii]
  · simp [decorr_spec, hij, hxij, hxii, hxjj]

/-- The preceding theorem applied to the matrix `[[4, 0.5], [0.5, 9]]`. -/
theorem decorr_eq_simultaneous_witness :
    ex_corr.WF ∧ ex_corr.nrow = ex_corr.ncol ∧
    ∃ y, decorr Rat.sqrt ex_corr = .ok y ∧ y.nrow = ex_corr.nrow ∧ y.ncol = ex_corr.ncol ∧
      y.WF ∧ y.dimnames = ex_corr.dimnames ∧
      ∀ i j, i < ex_corr.nrow → j < ex_corr.nrow →
        y.get? i j = decorr_spec Rat.sqrt ex_corr i j ∧
        ∃ xij xii xjj, ex_corr.get? i j = some xij ∧ ex_corr.get? i i = some xii ∧
          ex_corr.get? j j = some xjj ∧
          y.get? i j = some (if i = j then xii else xij * Rat.sqrt (xii * xjj)) :=
  ⟨by decide, by decide, decorr_eq_simultaneous Rat.sqrt ex_corr (by decide) (by decide)⟩

theorem decorr.cell_error (sqrt : α → α) (i j : Nat) (x : NumericMatrix α)
    (e : Err × NumericMatrix α) (h : decorr.cell sqrt i j x = .error e) :
    e.1 = Err.outOfBounds := by
  unfold decorr.cell at h
  split at h
  · split at h
    · rename_i xij xii xjj _ _ _
      cases hset : x.set? i j (xij * sqrt (xii * xjj)) with
      | none => rw [hset] at h; simp [orFail] at h; rw [← h]
      | some z => rw [hset] at h; simp [orFail] at h
    · cases h; rfl
  · cases h

/-- C6: `decorr` fails with "matrix is not square" exactly when the row count
differs from the column count, and the matrix is then the one that was passed. -/
theorem decorr_not_square_iff (sqrt : α → α) (x : NumericMatrix α) :
    ((∃ y, decorr sqrt x = .error (Err.stop "matrix is not square", y)) ↔
      x.nrow ≠ x.ncol) ∧
    (x.nrow ≠ x.ncol → decorr sqrt x = .error (Err.stop "matrix is not square", x)) := by
  have hfail : x.nrow ≠ x.ncol →
      decorr sqrt x = .error (Err.stop "matrix is not square", x) := by
    intro h
    simp [decorr, h]
  refine ⟨⟨fun ⟨y, hy⟩ => ?_, fun h => ⟨x, hfail h⟩⟩, hfail⟩
  intro hsq
  have hne : ¬ (x.nrow ≠ x.ncol) := fun h => h hsq
  simp only [decorr, hne, ↓reduceIte] at hy
  have := forLoop_error (fun e : Err × NumericMatrix α => e.1 = Err.outOfBounds)
    (fun i t e h => forLoop_error (fun e : Err × NumericMatrix α => e.1 = Err.outOfBounds)
      (fun j t2 e2 h2 => decorr.cell_error sqrt i j t2 e2 h2) h) hy
  cases this

/-- The preceding theorem applied to a `1 × 2` matrix. -/
theorem decorr_not_square_iff_witness :
    ex_rect.nrow ≠ ex_rect.ncol ∧
    decorr Rat.sqrt ex_rect = .error (Err.stop "matrix is not square", ex_rect) :=
  ⟨by decide, (decorr_not_square_iff Rat.sqrt ex_rect).2 (by decide)⟩

end ClaimsDecorr

section ClaimsExpand

variable {α : Type} [Zero α]

/-- C7: for a template with column labels, `R` rows and `C` columns and `M`
identifiers, `EXPAND_EVENTS` returns `R * M` rows, and `C + 1` columns when
`idcol_[0] - 1` is negative, `C` columns when `0 ≤ idcol_[0] - 1 < C`; and whatever
the column index, a table it returns has `R * M` rows. -/
theorem EXPAND_EVENTS_shape (idcol_ : List Int) (events : NumericMatrix α) (id : List α)
    (v : Int) (rn : Option (List String)) (names : List String)
    (hv : idcol_[0]? = some v) (hwf : events.WF)
    (hdn : events.dimnames = some (rn, some names)) :
    (v - 1 < 0 → ∃ ans, EXPAND_EVENTS idcol_ events id = .ok ans ∧
      ans.nrow = events.nrow * id.length ∧ ans.ncol = events.ncol + 1) ∧
    (0 ≤ v - 1 → v - 1 < events.ncol → ∃ ans, EXPAND_EVENTS idcol_ events id = .ok ans ∧
      ans.nrow = events.nrow * id.length ∧ ans.ncol = events.ncol) ∧
    (∀ ans, EXPAND_EVENTS idcol_ events id = .ok ans →
      ans.nrow = events.nrow * id.length) := by
  refine ⟨fun hneg => ?_, fun h0 hlt => ?_, fun ans h => ?_⟩
  · obtain ⟨ans, hrun, hr, hc, _⟩ :=
      EXPAND_EVENTS_core idcol_ events id v rn names hv hwf hdn (Or.inl hneg)
    exact ⟨ans, hrun, hr, by simpa [hneg] using hc⟩
  · obtain ⟨ans, hrun, hr, hc, _⟩ :=
      EXPAND_EVENTS_core idcol_ events id v rn names hv hwf hdn (Or.inr ⟨h0, hlt⟩)
    have hn : ¬ v - 1 < 0 := by omega
    exact ⟨ans, hrun, hr, by simpa [hn] using hc⟩
  · obtain ⟨_, _, _, _, _, hr, _⟩ := EXPAND_EVENTS_ok_shape idcol_ events id ans h
    exact hr

/-- The preceding theorem applied to a template of 3 rows and 2 columns, two identifiers, once
without and once with an identifier column. -/
theorem EXPAND_EVENTS_shape_witness :
    (∃ ans, EXPAND_EVENTS [0] ex_events [101, 102] = .ok ans ∧
      ans.nrow = 3 * 2 ∧ ans.ncol = 2 + 1) ∧
    (∃ ans, EXPAND_EVENTS [2] ex_events_id [101, 102] = .ok ans ∧
      ans.nrow = 3 * 2 ∧ ans.ncol = 2) :=
  ⟨(EXPAND_EVENTS_shape [0] ex_events [101, 102] 0 none ["time", "amt"] rfl (by decide) rfl).1
      (by decide),
   (EXPAND_EVENTS_shape [2] ex_events_id [101, 102] 2 none ["time", "ID"] rfl (by decide)
      rfl).2.1 (by decide) (by decide)⟩

/-- C8: output row `i * R + j` holds `id[i]` in the identifier column (column
`idcol_[0] - 1` when present, the appended column `C` when absent) and the template
entry `(j, k)` in every other column `k`; when the identifier column was absent,
every template entry is copied. -/
theorem EXPAND_EVENTS_rows (idcol_ : List Int) (events : NumericMatrix α) (id : List α)
    (v : Int) (rn : Option (List String)) (names : List String)
    (hv : idcol_[0]? = some v) (hwf : events.WF)
    (hdn : events.dimnames = some (rn, some names))
    (hcol : v - 1 < 0 ∨ (0 ≤ v - 1 ∧ v - 1 < events.ncol)) :
    ∃ ans, EXPAND_EVENTS idcol_ events id = .ok ans ∧
      ∀ i j (hi : i < id.length), j < events.nrow →
        ans.get? (i * events.nrow + j) (if v - 1 < 0 then events.ncol else (v - 1).toNat) =
          some id[i] ∧
        (∀ k, k < events.ncol → k ≠ (if v - 1 < 0 then events.ncol else (v - 1).toNat) →
          ∃ e, events.get? j k = some e ∧ ans.get? (i * events.nrow + j) k = some e) ∧
        (v - 1 < 0 → ∀ k, k < events.ncol →
          ∃ e, events.get? j k = some e ∧ ans.get? (i * events.nrow + j) k = some e) := by
  obtain ⟨ans, hrun, _, _, _, _, hcells⟩ :=
    EXPAND_EVENTS_core idcol_ events id v rn names hv hwf hdn hcol
  refine ⟨ans, hrun, fun i j hi hj => ?_⟩
  obtain ⟨q1, q2⟩ := hcells i j hi hj
  simp only [EXPAND_EVENTS.idColumn] at q1 q2
  have hother : ∀ k, k < events.ncol →
      k ≠ (if v - 1 < 0 then events.ncol else (v - 1).toNat) →
      ∃ e, events.get? j k = some e ∧ ans.get? (i * events.nrow + j) k = some e := by
    intro k hk hne
    obtain ⟨e, he⟩ := NumericMatrix.get?_isSome hwf hj hk
    exact ⟨e, he, by rw [q2 k hk hne, he]⟩
  refine ⟨by rw [q1]; simp [hi], hother, fun hneg k hk => hother k hk ?_⟩
  simp only [hneg, ↓reduceIte]
  omega

/-- The preceding theorem applied to three template rows, no identifier column, identifiers
`[101, 102]`. -/
theorem EXPAND_EVENTS_rows_witness :
    ∃ ans, EXPAND_EVENTS [0] ex_events [101, 102] = .ok ans ∧
      ∀ i j (hi : i < [(101 : ℚ), 102].length), j < ex_events.nrow →
        ans.get? (i * ex_events.nrow + j)
            (if (0 : Int) - 1 < 0 then ex_events.ncol else ((0 : Int) - 1).toNat) =
          some [(101 : ℚ), 102][i] ∧
        (∀ k, k < ex_events.ncol →
          k ≠ (if (0 : Int) - 1 < 0 then ex_events.ncol else ((0 : Int) - 1).toNat) →
          ∃ e, ex_events.get? j k = some e ∧ ans.get? (i * ex_events.nrow + j) k = some e) ∧
        ((0 : Int) - 1 < 0 → ∀ k, k < ex_events.ncol →
          ∃ e, ex_events.get? j k = some e ∧ ans.get? (i * ex_events.nrow + j) k = some e) :=
  EXPAND_EVENTS_rows [0] ex_events [101, 102] 0 none ["time", "amt"] rfl (by decide) rfl
    (Or.inl (by decide))

/-- C9: the table returned by `EXPAND_EVENTS` has the empty row-label vector; its
column labels are those of the template when the identifier column is present and
those followed by `"ID"` when it is absent; their number is the column count of the
output.  The row labels are empty for every table the routine returns, whatever
the column index. -/
theorem EXPAND_EVENTS_labels (idcol_ : List Int) (events : NumericMatrix α) (id : List α)
    (v : Int) (rn : Option (List String)) (names : List String)
    (hv : idcol_[0]? = some v) (hwf : events.WF)
    (hdn : events.dimnames = some (rn, some names)) (hlab : names.length = events.ncol)
    (hcol : v - 1 < 0 ∨ (0 ≤ v - 1 ∧ v - 1 < events.ncol)) :
    ∃ ans cn, EXPAND_EVENTS idcol_ events id = .ok ans ∧
      ans.dimnames = some (some [], some cn) ∧
      (v - 1 < 0 → cn = names ++ ["ID"]) ∧ (0 ≤ v - 1 → cn = names) ∧
      cn.length = ans.ncol ∧
      ∀ ans2, EXPAND_EVENTS idcol_ events id = .ok ans2 →
        ∃ cn2, ans2.dimnames = some (some [], some cn2) := by
  obtain ⟨ans, hrun, _, hc, _, hd, _⟩ :=
    EXPAND_EVENTS_core idcol_ events id v rn names hv hwf hdn hcol
  refine ⟨ans, _, hrun, hd, fun h => by simp [h], fun h => ?_, ?_, fun ans2 h2 => ?_⟩
  · have hn : ¬ v - 1 < 0 := by omega
    simp [hn]
  · rw [hc]
    by_cases h : v - 1 < 0 <;> simp [h, hlab]
  · obtain ⟨_, _, _, _, _, _, _, hd2⟩ := EXPAND_EVENTS_ok_shape idcol_ events id ans2 h2
    exact ⟨_, hd2⟩

/-- The preceding theorem applied to a template without identifier column. -/
theorem EXPAND_EVENTS_labels_witness :
    ∃ ans cn, EXPAND_EVENTS [0] ex_events [101, 102] = .ok ans ∧
      ans.dimnames = some (some [], some cn) ∧
      ((0 : Int) - 1 < 0 → cn = ["time", "amt"] ++ ["ID"]) ∧
      (0 ≤ (0 : Int) - 1 → cn = ["time", "amt"]) ∧
      cn.length = ans.ncol ∧
      ∀ ans2, EXPAND_EVENTS [0] ex_events [101, 102] = .ok ans2 →
        ∃ cn2, ans2.dimnames = some (some [], some cn2) :=
  EXPAND_EVENTS_labels [0] ex_events [101, 102] 0 none ["time", "amt"] rfl (by decide) rfl rfl
    (Or.inl (by decide))

end ClaimsExpand

section ClaimsGauss

/-- C10 (fails on the code): the `1 × 1` covariance matrix `[-1]` is symmetric, the
decomposition `([-1], [1])` reproduces it and its eigenvalue is negative, yet
`MVGAUSS` does not fail: whatever the square-root function and the draws `X`, it
returns the matrix with the entries `sqrt (-1) * X i 0`. -/
theorem MVGAUSS_negative_eigenvalue_returns :
    (!![(-1 : ℚ)] : Matrix (Fin 1) (Fin 1) ℚ).IsSymm ∧
    (eig_sym_1x1 !![(-1 : ℚ)]).2 * Matrix.diagonal (eig_sym_1x1 !![(-1 : ℚ)]).1 *
        (eig_sym_1x1 !![(-1 : ℚ)]).2.transpose = !![(-1 : ℚ)] ∧
    (eig_sym_1x1 !![(-1 : ℚ)]).1 0 < 0 ∧
    ∀ (sqrt : ℚ → ℚ) (X : Matrix (Fin 2) (Fin 1) ℚ),
      MVGAUSS eig_sym_1x1 sqrt X !![(-1 : ℚ)] = .ok (fun i _ => sqrt (-1) * X i 0) ∧
      ∀ e, MVGAUSS eig_sym_1x1 sqrt X !![(-1 : ℚ)] ≠ .error e := by
  refine ⟨?_, ?_, ?_, fun sqrt X => ⟨?_, fun e h => ?_⟩⟩
  · ext i j
    fin_cases i; fin_cases j; rfl
  · ext i j
    fin_cases i; fin_cases j
    simp [eig_sym_1x1]
  · simp [eig_sym_1x1]
  · simp only [MVGAUSS]
    congr 1
    ext i j
    fin_cases j
    simp [eig_sym_1x1, Matrix.mul_apply]
  · simp [MVGAUSS] at h

/-- C10 as amended: `MVGAUSS` makes no test on the eigenvalues.  For every
covariance matrix and every decomposition the library returns for it, it returns the
`n × K` matrix with entry `(i, j)` equal to `Σ k, eigvec(j,k) * sqrt (eigval k) * X(i,k)`,
the square root being applied to each eigenvalue whatever its sign. -/
theorem MVGAUSS_returns_unchecked {α : Type} [Semiring α] {K n : Nat}
    (eig_sym : Matrix (Fin K) (Fin K) α → (Fin K → α) × Matrix (Fin K) (Fin K) α)
    (sqrt : α → α) (X : Matrix (Fin n) (Fin K) α) (OMEGA : Matrix (Fin K) (Fin K) α) :
    MVGAUSS eig_sym sqrt X OMEGA =
      .ok (fun i j => ∑ k, (eig_sym OMEGA).2 j k * sqrt ((eig_sym OMEGA).1 k) * X i k) := by
  simp only [MVGAUSS]
  congr 1
  ext i j
  simp [Matrix.mul_apply, Matrix.diagonal_apply]

end ClaimsGauss

/-! ## `MVGAUSS`: the transform -/

section GaussTransform

/-- C11: over the real numbers, when the decomposition `(eigval, eigvec)` returned for
`OMEGA` reproduces it, `eigvec * diag(eigval) * eigvecᵀ = OMEGA`, and no eigenvalue
is negative, the transform `Z = eigvec * diagmat(sqrt(eigval))` formed by `MVGAUSS`
satisfies `Z * Zᵀ = OMEGA`. -/
theorem MVGAUSS_Z_mul_transpose {K : Nat}
    (eig_sym : Matrix (Fin K) (Fin K) ℝ → (Fin K → ℝ) × Matrix (Fin K) (Fin K) ℝ)
    (OMEGA : Matrix (Fin K) (Fin K) ℝ)
    (hdec : (eig_sym OMEGA).2 * Matrix.diagonal (eig_sym OMEGA).1 *
      (eig_sym OMEGA).2.transpose = OMEGA)
    (hnonneg : ∀ k, 0 ≤ (eig_sym OMEGA).1 k) :
    MVGAUSS.Z eig_sym Real.sqrt OMEGA * (MVGAUSS.Z eig_sym Real.sqrt OMEGA).transpose =
      OMEGA := by
  have hdiag : Matrix.diagonal (fun k => Real.sqrt ((eig_sym OMEGA).1 k)) *
      Matrix.diagonal (fun k => Real.sqrt ((eig_sym OMEGA).1 k)) =
      Matrix.diagonal (eig_sym OMEGA).1 := by
    rw [Matrix.diagonal_mul_diagonal]
    have hfun : (fun k => Real.sqrt ((eig_sym OMEGA).1 k) * Real.sqrt ((eig_sym OMEGA).1 k)) =
        (eig_sym OMEGA).1 := funext (fun k => Real.mul_self_sqrt (hnonneg k))
    rw [hfun]
  unfold MVGAUSS.Z
  rw [Matrix.transpose_mul, Matrix.diagonal_transpose, ← Matrix.mul_assoc,
    Matrix.mul_assoc (eig_sym OMEGA).2, hdiag]
  exact hdec

/-- The preceding theorem applied to the `1 × 1` covariance matrix `[4]`. -/
theorem MVGAUSS_Z_mul_transpose_witness :
    MVGAUSS.Z eig_sym_1x1 Real.sqrt (!![(4 : ℝ)] : Matrix (Fin 1) (Fin 1) ℝ) *
        (MVGAUSS.Z eig_sym_1x1 Real.sqrt !![(4 : ℝ)]).transpose = !![(4 : ℝ)] :=
  MVGAUSS_Z_mul_transpose eig_sym_1x1 !![(4 : ℝ)]
    (by
      ext i j
      fin_cases i; fin_cases j
      simp [eig_sym_1x1])
    (by
      intro k
      fin_cases k
      simp [eig_sym_1x1])

/-- C12: `MVGAUSS` returns the `n × K` matrix `(Z * Xᵀ)ᵀ`, which is `X * Zᵀ`, with
`Z = eigvec * diagmat(sqrt(eigval))`; row `i` of the result is `Z` applied to row
`i` of the draws `X`. -/
theorem MVGAUSS_eq_transform {α : Type} [CommSemiring α] {K n : Nat}
    (eig_sym : Matrix (Fin K) (Fin K) α → (Fin K → α) × Matrix (Fin K) (Fin K) α)
    (sqrt : α → α) (X : Matrix (Fin n) (Fin K) α) (OMEGA : Matrix (Fin K) (Fin K) α) :
    MVGAUSS eig_sym sqrt X OMEGA =
      .ok (MVGAUSS.Z eig_sym sqrt OMEGA * X.transpose).transpose ∧
    (MVGAUSS.Z eig_sym sqrt OMEGA * X.transpose).transpose =
      X * (MVGAUSS.Z eig_sym sqrt OMEGA).transpose ∧
    ∀ i, (MVGAUSS.Z eig_sym sqrt OMEGA * X.transpose).transpose i =
      (MVGAUSS.Z eig_sym sqrt OMEGA).mulVec (X i) := by
  refine ⟨rfl, ?_, fun i => ?_⟩
  · rw [Matrix.transpose_mul, Matrix.transpose_transpose]
  · funext j
    simp [Matrix.mul_apply, Matrix.mulVec, Matrix.dotProduct]

end GaussTransform

/-! ## `SUPERMATRIX` on a single matrix -/

section Single

variable {α : Type}

/-- Two well-formed matrices with the same extents, attributes and entries are equal. -/
theorem NumericMatrix.eq_of_get? {m1 m2 : NumericMatrix α} (h1 : m1.WF) (h2 : m2.WF)
    (hr : m1.nrow = m2.nrow) (hc : m1.ncol = m2.ncol) (hd : m1.dimnames = m2.dimnames)
    (hcell : ∀ r c, r < m1.nrow → c < m1.ncol → m1.get? r c = m2.get? r c) : m1 = m2 := by
  have hdata : m1.data = m2.data := by
    apply List.ext_getElem?
    intro o
    by_cases ho : o < m1.nrow * m1.ncol
    · have hn : 0 < m1.nrow := by
        rcases Nat.eq_zero_or_pos m1.nrow with h0 | h0
        · rw [h0] at ho; simp at ho
        · exact h0
      have hmod : o % m1.nrow < m1.nrow := Nat.mod_lt _ hn
      have hdiv : o / m1.nrow < m1.ncol := Nat.div_lt_of_lt_mul ho
      have hsplit : o % m1.nrow + m1.nrow * (o / m1.nrow) = o := Nat.mod_add_div o m1.nrow
      have := hcell (o % m1.nrow) (o / m1.nrow) hmod hdiv
      simp only [NumericMatrix.get?, NumericMatrix.offset] at this
      rw [← hr, hsplit] at this
      exact this
    · have e1 : m1.data.length ≤ o := by
        unfold NumericMatrix.WF at h1; omega
      have e2 : m2.data.length ≤ o := by
        unfold NumericMatrix.WF at h2; rw [← hr, ← hc] at h2; omega
      rw [List.getElem?_eq_none e1, List.getElem?_eq_none e2]
  cases m1; cases m2
  simp only [NumericMatrix.mk.injEq]
  exact ⟨hr, hc, hdata, hd⟩

theorem nonEmpty_singleton (m : NumericMatrix α) (h : m.nrow ≠ 0) : nonEmpty [m] = [m] := by
  simp [nonEmpty, h]

/-- `SUPERMATRIX` on the one-element list `[m]`, `m` square with rows: the result
is `m` with the labels of the first loop, or with none when `keep_names` is off. -/
theorem SUPERMATRIX_one_element [Zero α] (m : NumericMatrix α) (keep_names : Bool)
    (hwf : m.WF) (hsq : m.nrow = m.ncol) (h0 : m.nrow ≠ 0) :
    SUPERMATRIX [m] keep_names =
      .ok { m with dimnames :=
              if keep_names then some (some (rowLabelsOf m), some (colLabelsOf m)) else none } := by
  obtain ⟨ret, hrun, hr, hc, hretwf, hlab, hnolab, hcell⟩ :=
    SUPERMATRIX_square_core [m] keep_names (fun x hx => by
      rw [List.mem_singleton] at hx; subst hx; exact ⟨hwf, hsq⟩)
  have hT : totalDim [m] = m.nrow := by simp [totalDim, nonEmpty_singleton m h0]
  rw [hrun]
  congr 1
  apply NumericMatrix.eq_of_get? hretwf
  · exact hwf
  · rw [hr, hT]
  · rw [hc, hT]; exact hsq
  · cases keep_names with
    | false => simpa using hnolab rfl
    | true =>
      rw [hlab rfl]
      simp [rowLabels, colLabels, nonEmpty_singleton m h0]
  · intro r c hrr hcc
    rw [hr, hT] at hrr
    rw [hc, hT] at hcc
    have := (hcell r c (by omega) (by omega)).1 0 m (by simp) h0
      (by simp [blockOffset, totalDim, nonEmpty, sumRows, inRange]; exact hrr)
      (by simp [blockOffset, totalDim, nonEmpty, sumRows, inRange]; exact hcc)
    simpa [blockOffset, totalDim, nonEmpty, sumRows, NumericMatrix.get?] using this

/-- C13: for a non-empty square matrix `m`, `SUPERMATRIX [m]` returns a matrix with
the extents and every entry of `m`; with `keep_names` on, its row and column labels
are those of `m` where `m` carries them and `"."` repeated `dim(m)` times where not. -/
theorem SUPERMATRIX_single [Zero α] (m : NumericMatrix α) (keep_names : Bool)
    (hwf : m.WF) (hsq : m.nrow = m.ncol) (h0 : m.nrow ≠ 0) :
    ∃ ret, SUPERMATRIX [m] keep_names = .ok ret ∧
      ret.nrow = m.nrow ∧ ret.ncol = m.ncol ∧ ret.data = m.data ∧
      (∀ r c, r < m.nrow → c < m.ncol → ret.get? r c = m.get? r c) ∧
      (keep_names = true → ret.dimnames = some
        (some (match m.dimnames with
          | some (some l, _) => l
          | _ => List.replicate m.nrow "."),
         some (match m.dimnames with
          | some (_, some l) => l
          | _ => List.replicate m.nrow "."))) := by
  refine ⟨_, SUPERMATRIX_one_element m keep_names hwf hsq h0, rfl, rfl, rfl,
    fun _ _ _ _ => rfl, fun hk => ?_⟩
  subst hk
  simp only [↓reduceIte, rowLabelsOf, colLabelsOf, hsq]

/-- The preceding theorem applied to the matrix `[[4, 0.5], [0.5, 9]]`, which carries
no labels. -/
theorem SUPERMATRIX_single_witness :
    ∃ ret, SUPERMATRIX [ex_corr] true = .ok ret ∧
      ret.nrow = ex_corr.nrow ∧ ret.ncol = ex_corr.ncol ∧ ret.data = ex_corr.data ∧
      (∀ r c, r < ex_corr.nrow → c < ex_corr.ncol → ret.get? r c = ex_corr.get? r c) ∧
      (true = true → ret.dimnames = some
        (some (match ex_corr.dimnames with
          | some (some l, _) => l
          | _ => List.replicate ex_corr.nrow "."),
         some (match ex_corr.dimnames with
          | some (_, some l) => l
          | _ => List.replicate ex_corr.nrow "."))) :=
  SUPERMATRIX_single ex_corr true (by decide) (by decide) (by decide)

end Single

/-! ## `find_position` and `from_to` -/

section Lookup

theorem getElem?_ne_of_lt_indexOf (w : String) (l : List String) :
    ∀ i, i < l.indexOf w → l[i]? ≠ some w := by
  induction l with
  | nil => intro i hi; simp at hi
  | cons b t ih =>
    intro i hi
    by_cases hb : b = w
    · rw [List.indexOf_cons_eq _ hb] at hi; omega
    · rw [List.indexOf_cons_ne _ hb] at hi
      cases i with
      | zero => simpa using hb
      | succ k => simpa using ih k (by omega)

/-- C15: `find_position` returns `-1` exactly when `what` does not occur in `table`;
otherwise it returns the 0-based index of the first occurrence: the result `r`
satisfies `0 ≤ r < length(table)`, `table[r] = what`, and no smaller index holds
`what`. -/
theorem find_position_first_occurrence (w : String) (rest table : List String) :
    ∃ r, find_position (w :: rest) table = .ok r ∧
      (r = -1 ↔ w ∉ table) ∧
      (w ∈ table → 0 ≤ r ∧ r < table.length ∧ table[r.toNat]? = some w ∧
        ∀ i, i < r.toNat → table[i]? ≠ some w) := by
  by_cases hw : w ∈ table
  · refine ⟨(table.indexOf w : Nat), by simp [find_position, Rcpp_match, hw], ?_, fun _ => ?_⟩
    · constructor
      · intro h; omega
      · intro h; exact absurd hw h
    · refine ⟨by omega, by exact_mod_cast List.indexOf_lt_length.2 hw, ?_, ?_⟩
      · simpa using List.getElem?_indexOf hw
      · intro i hi
        exact getElem?_ne_of_lt_indexOf w table i (by simpa using hi)
  · exact ⟨-1, by simp [find_position, Rcpp_match, hw], by simp [hw], fun h => absurd h hw⟩

/-- The preceding theorem applied to the label `b` and the table `a, b, c, b`. -/
theorem find_position_first_occurrence_witness :
    ∃ r, find_position ["b"] ["a", "b", "c", "b"] = .ok r ∧
      (r = -1 ↔ "b" ∉ ["a", "b", "c", "b"]) ∧
      ("b" ∈ ["a", "b", "c", "b"] → 0 ≤ r ∧ r < ["a", "b", "c", "b"].length ∧
        ["a", "b", "c", "b"][r.toNat]? = some "b" ∧
        ∀ i, i < r.toNat → ["a", "b", "c", "b"][i]? ≠ some "b") :=
  find_position_first_occurrence "b" [] ["a", "b", "c", "b"]

/-- The position found in the preceding input is `1`, that of the first of the two
occurrences; a label that does not occur gives `-1`. -/
theorem find_position_example :
    find_position ["b"] ["a", "b", "c", "b"] = .ok 1 ∧
    find_position ["z"] ["a", "b", "c", "b"] = .ok (-1) := by
  decide

/-- What `na_omit(match(x, table) - 1)` computes: the 0-based first positions in
`table` of the elements of `x` that occur in `table`, in the order of `x`. -/
theorem na_omit_minus_one_match (x table : List String) :
    na_omit (minus_one (Rcpp_match x table)) =
      (x.filter (fun s => decide (s ∈ table))).map (fun s => ((table.indexOf s : Nat) : Int)) := by
  induction x with
  | nil => rfl
  | cons s t ih =>
    simp only [na_omit, minus_one, Rcpp_match, List.map_cons, List.filterMap_cons] at ih ⊢
    by_cases hs : s ∈ table
    · simp [hs, List.filter_cons, ← ih]
    · simp [hs, List.filter_cons, ← ih]

theorem pairwise_indexOf_lt (b : List String) (hb : b.Nodup) :
    b.Pairwise (fun x y => ((b.indexOf x : Nat) : Int) < ((b.indexOf y : Nat) : Int)) := by
  rw [List.pairwise_iff_getElem]
  intro i j hi hj hij
  rw [List.indexOf_getElem hb i hi, List.indexOf_getElem hb j hj]
  exact_mod_cast hij

/-- The vector `bi` that `from_to` leaves: the positions in `b` of the common
labels, taken in the order of `b`. -/
theorem from_to_snd (a b : List String) (ha : a.Nodup) (hb : b.Nodup) :
    (from_to a b).2 =
      (b.filter (fun s => decide (s ∈ a))).map (fun s => ((b.indexOf s : Nat) : Int)) := by
  have hsorted : ((b.filter (fun s => decide (s ∈ a))).map
      (fun s => ((b.indexOf s : Nat) : Int))).Sorted (fun p q => p < q) := by
    unfold List.Sorted
    rw [List.pairwise_map]
    exact (pairwise_indexOf_lt b hb).sublist (List.filter_sublist _)
  have hperm : (a.filter (fun s => decide (s ∈ b))).Perm (b.filter (fun s => decide (s ∈ a))) := by
    rw [List.perm_ext_iff_of_nodup (ha.filter _) (hb.filter _)]
    intro s
    simp only [List.mem_filter, decide_eq_true_eq]
    exact ⟨fun h => ⟨h.2, h.1⟩, fun h => ⟨h.2, h.1⟩⟩
  unfold from_to
  simp only [na_omit_minus_one_match]
  apply List.eq_of_perm_of_sorted (r := fun p q : Int => p ≤ q)
  · exact (List.perm_insertionSort _ _).trans (hperm.map _)
  · exact List.sorted_insertionSort _ _
  · exact hsorted.imp (fun h => le_of_lt h)

/-- C14: for label vectors `a` and `b` without duplicates, `from_to` leaves `ai` and
`bi` of the same length, the number of common labels; `bi` is strictly
increasing; and for every `k` the entries `ai[k]` and `bi[k]` are valid 0-based
indices into `a` and `b` that address the same label. -/
theorem from_to_matched_pairs (a b : List String) (ha : a.Nodup) (hb : b.Nodup) :
    (from_to a b).1.length = (from_to a b).2.length ∧
    (from_to a b).1.length = (a.filter (fun s => decide (s ∈ b))).length ∧
    (from_to a b).2.Sorted (fun p q => p < q) ∧
    ∀ k, k < (from_to a b).1.length →
      ∃ (p q : Int) (s : String), (from_to a b).1[k]? = some p ∧ (from_to a b).2[k]? = some q ∧
        0 ≤ p ∧ p < a.length ∧ 0 ≤ q ∧ q < b.length ∧
        a[p.toNat]? = some s ∧ b[q.toNat]? = some s := by
  have h2 := from_to_snd a b ha hb
  have h1 : (from_to a b).1 =
      (b.filter (fun s => decide (s ∈ a))).map (fun s => ((a.indexOf s : Nat) : Int)) := by
    unfold from_to
    simp only [na_omit_minus_one_match]
  have hperm : (a.filter (fun s => decide (s ∈ b))).Perm (b.filter (fun s => decide (s ∈ a))) := by
    rw [List.perm_ext_iff_of_nodup (ha.filter _) (hb.filter _)]
    intro s
    simp only [List.mem_filter, decide_eq_true_eq]
    exact ⟨fun h => ⟨h.2, h.1⟩, fun h => ⟨h.2, h.1⟩⟩
  rw [h1, h2]
  refine ⟨by simp, by simp [hperm.length_eq], ?_, ?_⟩
  · unfold List.Sorted
    rw [List.pairwise_map]
    exact (pairwise_indexOf_lt b hb).sublist (List.filter_sublist _)
  · intro k hk
    simp only [List.length_map] at hk
    have hmem : (b.filter (fun s => decide (s ∈ a)))[k] ∈ b.filter (fun s => decide (s ∈ a)) :=
      List.getElem_mem _
    simp only [List.mem_filter, decide_eq_true_eq] at hmem
    refine ⟨((a.indexOf (b.filter (fun s => decide (s ∈ a)))[k] : Nat) : Int),
      ((b.indexOf (b.filter (fun s => decide (s ∈ a)))[k] : Nat) : Int),
      (b.filter (fun s => decide (s ∈ a)))[k], by simp [hk], by simp [hk], by omega,
      by exact_mod_cast List.indexOf_lt_length.2 hmem.2, by omega,
      by exact_mod_cast List.indexOf_lt_length.2 hmem.1, ?_, ?_⟩
    · simpa using List.getElem?_indexOf hmem.2
    · simpa using List.getElem?_indexOf hmem.1

/-- The preceding theorem applied to `a = [a, b, c, d]`, `b = [d, x, b, a]`. -/
theorem from_to_matched_pairs_witness :
    (from_to ["a", "b", "c", "d"] ["d", "x", "b", "a"]).1.length =
      (from_to ["a", "b", "c", "d"] ["d", "x", "b", "a"]).2.length ∧
    (from_to ["a", "b", "c", "d"] ["d", "x", "b", "a"]).1.length =
      (["a", "b", "c", "d"].filter (fun s => decide (s ∈ ["d", "x", "b", "a"]))).length ∧
    (from_to ["a", "b", "c", "d"] ["d", "x", "b", "a"]).2.Sorted (fun p q => p < q) ∧
    ∀ k, k < (from_to ["a", "b", "c", "d"] ["d", "x", "b", "a"]).1.length →
      ∃ (p q : Int) (s : String),
        (from_to ["a", "b", "c", "d"] ["d", "x", "b", "a"]).1[k]? = some p ∧
        (from_to ["a", "b", "c", "d"] ["d", "x", "b", "a"]).2[k]? = some q ∧
        0 ≤ p ∧ p < ["a", "b", "c", "d"].length ∧ 0 ≤ q ∧ q < ["d", "x", "b", "a"].length ∧
        ["a", "b", "c", "d"][p.toNat]? = some s ∧ ["d", "x", "b", "a"][q.toNat]? = some s :=
  from_to_matched_pairs ["a", "b", "c", "d"] ["d", "x", "b", "a"] (by decide) (by decide)

/-- The vectors of the preceding input: `ai = [3, 1, 0]` and `bi = [0, 2, 3]`. -/
theorem from_to_example :
    from_to ["a", "b", "c", "d"] ["d", "x", "b", "a"] = ([3, 1, 0], [0, 2, 3]) := by
  decide

end Lookup

/-! ## `decorr` and symmetry; `ZERO` -/

section Symmetry

variable {α : Type} [Mul α]

/-- The run of `decorr` on a square matrix: it returns, and every cell of the result
is the one `decorr_spec` computes from the original matrix. -/
theorem decorr_run (sqrt : α → α) (x : NumericMatrix α) (hwf : x.WF) (hsq : x.nrow = x.ncol) :
    ∃ y, decorr sqrt x = .ok y ∧ y.nrow = x.nrow ∧ y.ncol = x.ncol ∧ y.WF ∧
      y.dimnames = x.dimnames ∧
      ∀ i j, i < x.nrow → j < x.nrow → y.get? i j = decorr_spec sqrt x i j := by
  obtain ⟨y, hrun, h1, h2, h3, h4, h5⟩ := forLoop_inv
    (fun i z => decorr.Partial sqrt x (fun r _ => r < i) z)
    x.nrow
    (fun i x2 => forLoop x.nrow (fun j x3 => decorr.cell sqrt i j x3) x2)
    x
    ⟨rfl, rfl, hwf, rfl, fun r c _ _ => ⟨fun h => absurd h (by omega), fun _ => rfl⟩⟩
    (fun i z hi hz => decorr.row_step sqrt x hwf hsq i hi z hz)
  have hne : ¬ (x.nrow ≠ x.ncol) := fun h => h hsq
  exact ⟨y, by simp only [decorr, hne, ↓reduceIte]; exact hrun, h1, h2, h3, h4,
    fun i j hi hj => (h5 i j hi hj).1 hi⟩

/-- C19: `decorr` preserves symmetry.  For a square matrix with `x(i,j) = x(j,i)` for
all `i`, `j` (and a commutative multiplication of the entries, as that of `double`),
the matrix left by `decorr` is symmetric. -/
theorem decorr_preserves_symmetry (sqrt : α → α) (x : NumericMatrix α)
    (hcomm : ∀ p q : α, p * q = q * p) (hwf : x.WF) (hsq : x.nrow = x.ncol)
    (hsym : ∀ i j, i < x.nrow → j < x.nrow → x.get? i j = x.get? j i) :
    ∃ y, decorr sqrt x = .ok y ∧ y.nrow = y.ncol ∧
      ∀ i j, i < y.nrow → j < y.nrow → y.get? i j = y.get? j i := by
  obtain ⟨y, hrun, h1, h2, _, _, hcell⟩ := decorr_run sqrt x hwf hsq
  refine ⟨y, hrun, by omega, fun i j hi hj => ?_⟩
  rw [h1] at hi hj
  rw [hcell i j hi hj, hcell j i hj hi]
  by_cases hij : i = j
  · subst hij; rfl
  · have hji : ¬ j = i := fun h => hij h.symm
    simp only [decorr_spec, hij, hji, ↓reduceIte, hsym i j hi hj]
    cases x.get? j i <;> cases x.get? i i <;> cases x.get? j j <;> simp [hcomm]

/-- The preceding theorem applied to the symmetric matrix `[[4, 0.5], [0.5, 9]]`. -/
theorem decorr_preserves_symmetry_witness :
    ∃ y, decorr Rat.sqrt ex_corr = .ok y ∧ y.nrow = y.ncol ∧
      ∀ i j, i < y.nrow → j < y.nrow → y.get? i j = y.get? j i :=
  decorr_preserves_symmetry Rat.sqrt ex_corr (fun p q => mul_comm p q) (by decide) (by decide)
    (fun i j hi hj => by
      have hi2 : i < 2 := hi
      have hj2 : j < 2 := hj
      interval_cases i <;> interval_cases j <;> rfl)

end Symmetry

section Zero

variable {α : Type} [Zero α]

/-- On a square matrix `ZERO` stays inside the matrix, returns, keeps the extents
and leaves zero in every cell. -/
theorem ZERO_square (x : NumericMatrix α) (hwf : x.WF) (hsq : x.nrow = x.ncol) :
    ∃ y, ZERO x = .ok y ∧ y.nrow = x.nrow ∧ y.ncol = x.ncol ∧ y.dimnames = x.dimnames ∧
      (∀ r c, r < x.nrow → c < x.ncol → y.get? r c = some 0) ∧
      ∀ p ∈ ZERO.accesses x, p.1 < x.nrow ∧ p.2 < x.ncol := by
  have hpart : ∀ (d1 d2 : Nat → Nat → Prop) (z : NumericMatrix α),
      (∀ r c, r < x.nrow → c < x.ncol → (d1 r c ↔ d2 r c)) →
      ZERO.Partial x d1 z → ZERO.Partial x d2 z := by
    intro d1 d2 z hd hz
    obtain ⟨q1, q2, q3, q4, q5⟩ := hz
    refine ⟨q1, q2, q3, q4, fun r c hr hc => ?_⟩
    rw [← hd r c hr hc]
    exact q5 r c hr hc
  have inner : ∀ i, i < x.ncol → ∀ z, ZERO.Partial x (fun r _ => r < i) z →
      ∃ z2, forLoop x.nrow (fun j x2 => orFail (Err.outOfBounds, x2) (x2.set? i j 0)) z = .ok z2 ∧
        ZERO.Partial x (fun r _ => r < i + 1) z2 := by
    intro i hi z hz
    obtain ⟨z2, hrun, hP⟩ := forLoop_inv
      (fun j w => ZERO.Partial x (fun r c => r < i ∨ (r = i ∧ c < j)) w)
      x.nrow
      (fun j x2 => orFail (Err.outOfBounds, x2) (x2.set? i j 0))
      z
      (hpart _ _ z (fun r c _ _ => by constructor <;> intro h <;> omega) hz)
      (by
        intro j w hj ⟨q1, q2, q3, q4, q5⟩
        obtain ⟨w2, hset, g1, g2, g3, g4, gnew, gframe⟩ :=
          NumericMatrix.set?_spec q3 (i := i) (j := j) (by omega) (by omega) (0 : α)
        refine ⟨w2, by simp [hset, orFail], by omega, by omega, g3, g4.trans q4, ?_⟩
        intro r c hr hc
        by_cases hrc : r = i ∧ c = j
        · obtain ⟨e1, e2⟩ := hrc
          rw [e1, e2]
          exact ⟨fun _ => gnew, fun hd => absurd (Or.inr ⟨rfl, Nat.lt_succ_self _⟩) hd⟩
        · rw [gframe r c (by omega) (by omega)]
          exact ⟨fun hd => (q5 r c hr hc).1 (by omega), fun hd => (q5 r c hr hc).2 (by omega)⟩)
    exact ⟨z2, hrun, hpart _ _ z2 (fun r c _ _ => by constructor <;> intro h <;> omega) hP⟩
  obtain ⟨y, hrun, q1, q2, q3, q4, q5⟩ := forLoop_inv
    (fun i z => ZERO.Partial x (fun r _ => r < i) z)
    x.ncol
    (fun i x1 => forLoop x.nrow
      (fun j x2 => orFail (Err.outOfBounds, x2) (x2.set? i j 0)) x1)
    x
    ⟨rfl, rfl, hwf, rfl, fun r c _ _ => ⟨fun h => absurd h (by omega), fun _ => rfl⟩⟩
    (fun i z hi hz => inner i hi z hz)
  refine ⟨y, hrun, q1, q2, q4, fun r c hr hc => (q5 r c hr hc).1 (by omega), ?_⟩
  intro p hp
  simp only [ZERO.accesses, List.mem_flatMap, List.mem_range, List.mem_map] at hp
  obtain ⟨i, hi, j, hj, rfl⟩ := hp
  exact ⟨by simpa [hsq] using hi, by simpa [← hsq] using hj⟩

/-- C20 (fails on the code): on the `2 × 3` matrix with the entries 1 to 6 the loops
of `ZERO` address `(2, 0)` and `(2, 1)`, whose row index is not below the row
count 2, and the matrix returned still holds `6` in its last cell; on the `2 × 1`
matrix with the entries 1, 2 the second access, `x(0, 1)`, falls outside the buffer. -/
theorem ZERO_swapped_bounds :
    ZERO.accesses ex_wide = [(0, 0), (0, 1), (1, 0), (1, 1), (2, 0), (2, 1)] ∧
    ZERO ex_wide = .ok { nrow := 2, ncol := 3, data := [0, 0, 0, 0, 0, 6] } ∧
    ex_wide.get? 1 2 = some 6 ∧
    (∀ y, ZERO ex_wide = .ok y → y.get? 1 2 = some 6) ∧
    ZERO.accesses ex_tall = [(0, 0), (0, 1)] ∧
    ZERO ex_tall = .error (Err.outOfBounds, { nrow := 2, ncol := 1, data := [0, 2] }) := by
  refine ⟨by decide, by decide, by decide, fun y hy => ?_, by decide, by decide⟩
  have h : ZERO ex_wide = .ok { nrow := 2, ncol := 3, data := [0, 0, 0, 0, 0, 6] } := by decide
  rw [h] at hy
  cases hy
  decide

end Zero

/-! ## `EXPAND_EVENTS`: the index convention, and concatenated identifiers -/

section ExpandMore

variable {α : Type}

/-- Under the conditions of `EXPAND_EVENTS_core`, every cell of the table returned is
the one `EXPAND_EVENTS.cell` describes. -/
theorem EXPAND_EVENTS_cells [Zero α] (idcol_ : List Int) (events : NumericMatrix α)
    (id : List α) (v : Int) (rn : Option (List String)) (names : List String)
    (hv : idcol_[0]? = some v) (hwf : events.WF)
    (hdn : events.dimnames = some (rn, some names))
    (hcol : v - 1 < 0 ∨ (0 ≤ v - 1 ∧ v - 1 < events.ncol)) :
    ∃ ans, EXPAND_EVENTS idcol_ events id = .ok ans ∧
      ans.nrow = events.nrow * id.length ∧
      ans.ncol = (if v - 1 < 0 then events.ncol + 1 else events.ncol) ∧
      ans.dimnames = some (some [], some (if v - 1 < 0 then names ++ ["ID"] else names)) ∧
      ∀ r c, r < ans.nrow → c < ans.ncol → ans.get? r c = EXPAND_EVENTS.cell events id v r c := by
  obtain ⟨ans, hrun, hr, hc, _, hd, hcells⟩ :=
    EXPAND_EVENTS_core idcol_ events id v rn names hv hwf hdn hcol
  refine ⟨ans, hrun, hr, hc, hd, fun r c hrr hcc => ?_⟩
  rw [hr] at hrr
  have hR : 0 < events.nrow := by
    rcases Nat.eq_zero_or_pos events.nrow with h0 | h0
    · rw [h0] at hrr; simp at hrr
    · exact h0
  have hi : r / events.nrow < id.length :=
    Nat.div_lt_of_lt_mul hrr
  have hj : r % events.nrow < events.nrow := Nat.mod_lt _ hR
  have hsplit : r / events.nrow * events.nrow + r % events.nrow = r := Nat.div_add_mod' r _
  obtain ⟨q1, q2⟩ := hcells (r / events.nrow) (r % events.nrow) hi hj
  rw [hsplit] at q1 q2
  unfold EXPAND_EVENTS.cell
  by_cases hcid : c = EXPAND_EVENTS.idColumn v events.ncol
  · rw [if_pos hcid, hcid]; exact q1
  · rw [if_neg hcid]
    refine q2 c ?_ hcid
    rw [hc] at hcc
    unfold EXPAND_EVENTS.idColumn at hcid
    rcases hcol with hneg | ⟨hpos, hlt⟩
    · simp only [hneg, ↓reduceIte] at hcc hcid
      omega
    · have hn : ¬ v - 1 < 0 := by omega
      simp only [hn, ↓reduceIte] at hcc
      exact hcc

/-- C16 (fails on the code): in the template with the columns `ID`, `time` the name
`ID` is found at position `0`, and `EXPAND_EVENTS` given `0` appends a third
column `ID` although the position is not `-1`; in the template with the columns
`time`, `ID` the name is found at position `1`, and `EXPAND_EVENTS` given `1`
writes the identifiers into column `0`, the column `time`. -/
theorem EXPAND_EVENTS_find_position_off_by_one :
    find_position ["ID"] ["ID", "time"] = .ok 0 ∧
    EXPAND_EVENTS [0] ex_events_id_first [101, 102] = .ok
      { nrow := 6, ncol := 3,
        data := [1, 1, 1, 1, 1, 1, 0, 12, 24, 0, 12, 24, 101, 101, 101, 102, 102, 102],
        dimnames := some (some [], some ["ID", "time", "ID"]) } ∧
    find_position ["ID"] ["time", "ID"] = .ok 1 ∧
    EXPAND_EVENTS [1] ex_events_id [101, 102] = .ok
      { nrow := 6, ncol := 2,
        data := [101, 101, 101, 102, 102, 102, 1, 1, 1, 1, 1, 1],
        dimnames := some (some [], some ["time", "ID"]) } := by
  decide

/-- C16 as amended: `EXPAND_EVENTS` subtracts one from `idcol_[0]`, so it expects the
1-based position.  Given `p + 1`, where `p` is what `find_position` returns for
`name` in the column labels of the template, it appends the column `"ID"` exactly
when `p = -1`, and when `p ≥ 0` it keeps the column count and the labels and writes
the identifiers into column `p`, the column labelled `name`. -/
theorem EXPAND_EVENTS_find_position_succ [Zero α] (events : NumericMatrix α) (id : List α)
    (name : String) (rest : List String) (rn : Option (List String)) (names : List String)
    (hwf : events.WF) (hdn : events.dimnames = some (rn, some names))
    (hlab : names.length = events.ncol) :
    ∃ p ans, find_position (name :: rest) names = .ok p ∧
      EXPAND_EVENTS [p + 1] events id = .ok ans ∧
      (ans.ncol = events.ncol + 1 ↔ p = -1) ∧
      (p = -1 → ans.dimnames = some (some [], some (names ++ ["ID"]))) ∧
      (0 ≤ p → ans.ncol = events.ncol ∧ ans.dimnames = some (some [], some names) ∧
        names[p.toNat]? = some name ∧
        ∀ i j (hi : i < id.length), j < events.nrow →
          ans.get? (i * events.nrow + j) p.toNat = some id[i]) := by
  by_cases hw : name ∈ names
  · have hidx : names.indexOf name < names.length := List.indexOf_lt_length.2 hw
    have hv1 : ((names.indexOf name : Nat) : Int) + 1 - 1 = (names.indexOf name : Nat) := by omega
    obtain ⟨ans, hrun, _, hc, _, hd, hcells⟩ :=
      EXPAND_EVENTS_core [((names.indexOf name : Nat) : Int) + 1] events id
        (((names.indexOf name : Nat) : Int) + 1) rn names rfl hwf hdn
        (Or.inr ⟨by omega, by omega⟩)
    have hn : ¬ ((names.indexOf name : Nat) : Int) + 1 - 1 < 0 := by omega
    simp only [hn, ↓reduceIte] at hc hd
    refine ⟨(names.indexOf name : Nat), ans, by simp [find_position, Rcpp_match, hw], hrun,
      ⟨fun h => by omega, fun h => by omega⟩, fun h => by omega,
      fun _ => ⟨hc, hd, by simpa using List.getElem?_indexOf hw, fun i j hi hj => ?_⟩⟩
    have hcolumn : EXPAND_EVENTS.idColumn (((names.indexOf name : Nat) : Int) + 1) events.ncol =
        names.indexOf name := by
      unfold EXPAND_EVENTS.idColumn
      rw [if_neg hn, hv1, Int.toNat_ofNat]
    have := (hcells i j hi hj).1
    rw [hcolumn] at this
    rw [Int.toNat_ofNat, this]
    simp [hi]
  · obtain ⟨ans, hrun, _, hc, _, hd, _⟩ :=
      EXPAND_EVENTS_core [(-1 : Int) + 1] events id ((-1 : Int) + 1) rn names rfl hwf hdn
        (Or.inl (by decide))
    have hneg : ((-1 : Int) + 1 - 1 < 0) := by decide
    simp only [hneg, ↓reduceIte] at hc hd
    exact ⟨-1, ans, by simp [find_position, Rcpp_match, hw], hrun, ⟨fun _ => rfl, fun _ => hc⟩,
      fun _ => hd, fun h => absurd h (by decide)⟩

/-- The preceding theorem applied to the template with the columns `time`, `ID` and
the name `ID`. -/
theorem EXPAND_EVENTS_find_position_succ_witness :
    ∃ p ans, find_position ["ID"] ["time", "ID"] = .ok p ∧
      EXPAND_EVENTS [p + 1] ex_events_id [101, 102] = .ok ans ∧
      (ans.ncol = ex_events_id.ncol + 1 ↔ p = -1) ∧
      (p = -1 → ans.dimnames = some (some [], some (["time", "ID"] ++ ["ID"]))) ∧
      (0 ≤ p → ans.ncol = ex_events_id.ncol ∧
        ans.dimnames = some (some [], some ["time", "ID"]) ∧
        ["time", "ID"][p.toNat]? = some "ID" ∧
        ∀ i j (hi : i < [(101 : ℚ), 102].length), j < ex_events_id.nrow →
          ans.get? (i * ex_events_id.nrow + j) p.toNat = some [(101 : ℚ), 102][i]) :=
  EXPAND_EVENTS_find_position_succ ex_events_id [101, 102] "ID" [] none ["time", "ID"]
    (by decide) rfl rfl

end ExpandMore

section ExpandAppend

variable {α : Type}

/-- A loop whose first iteration fails, fails. -/
theorem forLoop_error_of_first {ε σ : Type} (body : Nat → σ → Except ε σ) (s : σ) (e : ε)
    (h : body 0 s = .error e) : ∀ n, 0 < n → forLoop n body s = .error e := by
  intro n
  induction n with
  | zero => intro hn; omega
  | succ k ih =>
    intro _
    rcases Nat.eq_zero_or_pos k with h0 | h0
    · subst h0; simp [forLoop, h]
    · simp [forLoop, ih h0]

theorem NumericMatrix.set?_WF {m m2 : NumericMatrix α} {i j : Nat} {v : α}
    (h : m.set? i j v = some m2) (hwf : m.WF) : m2.WF := by
  unfold NumericMatrix.set? at h
  split at h
  · cases h
    simpa [NumericMatrix.WF] using hwf
  · cases h

/-- Writing an output row fails when the identifier column lies beyond the columns
of `ans`. -/
theorem EXPAND_EVENTS.row_fails (events : NumericMatrix α) (id : List α) (idcol i j : Nat)
    (s : EXPAND_EVENTS.Cursor α) (hs : s.ans.WF) (hcol : s.ans.ncol ≤ idcol) :
    ∃ e, EXPAND_EVENTS.row events id idcol i j s = .error e := by
  unfold EXPAND_EVENTS.row
  split
  · exact ⟨_, rfl⟩
  · rename_i ans1 hloop
    have h1 := forLoop_preserve
      (fun z : NumericMatrix α => z.ncol = s.ans.ncol ∧ z.WF) events.ncol _
      (by
        intro k z z2 hz hb
        cases hg : events.get? j k with
        | none => simp [hg] at hb
        | some v =>
          cases hset : z.set? s.crow k v with
          | none => simp [hg, hset, orFail] at hb
          | some z3 =>
            simp only [hg, hset, orFail, Except.ok.injEq] at hb
            rw [← hb]
            exact ⟨(NumericMatrix.set?_shape hset).2.trans hz.1,
              NumericMatrix.set?_WF hset hz.2⟩)
      s.ans ans1 ⟨rfl, hs⟩ hloop
    split
    · exact ⟨_, rfl⟩
    · rename_i idi _
      have hge := NumericMatrix.offset_ge_of_col h1.2 (i := s.crow) (j := idcol)
        (by rw [h1.1]; exact hcol)
      have hnone : ans1.set? s.crow idcol idi = none := by
        unfold NumericMatrix.set?
        rw [if_neg (by omega)]
      rw [hnone]
      exact ⟨_, rfl⟩

/-- `EXPAND_EVENTS` fails when `idcol_[0] - 1` is at or beyond the column count of the
template and at least one output row is to be written. -/
theorem EXPAND_EVENTS_col_out_of_range [Zero α] (idcol_ : List Int) (events : NumericMatrix α)
    (id : List α) (v : Int) (hv : idcol_[0]? = some v) (hbad : (events.ncol : Int) ≤ v - 1)
    (hR : 0 < events.nrow) (hM : 0 < id.length) :
    ∃ e, EXPAND_EVENTS idcol_ events id = .error e := by
  unfold EXPAND_EVENTS
  simp only [hv]
  split
  · exact ⟨_, rfl⟩
  · exact ⟨_, rfl⟩
  · have hn : ¬ v - 1 < 0 := by omega
    simp only [hn, ↓reduceIte]
    obtain ⟨e, he⟩ := EXPAND_EVENTS.row_fails events id (v - 1).toNat 0 0
      { ans := NumericMatrix.zeros (events.nrow * id.length) events.ncol, crow := 0 }
      (NumericMatrix.zeros_WF _ _) (by simp only [NumericMatrix.zeros]; omega)
    have h1 := forLoop_error_of_first
      (fun j s => EXPAND_EVENTS.row events id (v - 1).toNat 0 j s) _ e he events.nrow hR
    have h2 := forLoop_error_of_first
      (fun i s => forLoop events.nrow
        (fun j s => EXPAND_EVENTS.row events id (v - 1).toNat i j s) s) _ e h1 id.length hM
    rw [h2]
    exact ⟨_, rfl⟩

theorem EXPAND_EVENTS.cell_append_left (events : NumericMatrix α) (ids1 ids2 : List α)
    (v : Int) (r c : Nat) (hr : r < events.nrow * ids1.length) :
    EXPAND_EVENTS.cell events (ids1 ++ ids2) v r c = EXPAND_EVENTS.cell events ids1 v r c := by
  unfold EXPAND_EVENTS.cell
  rw [List.getElem?_append_left (Nat.div_lt_of_lt_mul hr)]

theorem EXPAND_EVENTS.cell_append_right (events : NumericMatrix α) (ids1 ids2 : List α)
    (v : Int) (r c : Nat) (hR : 0 < events.nrow) :
    EXPAND_EVENTS.cell events (ids1 ++ ids2) v (events.nrow * ids1.length + r) c =
      EXPAND_EVENTS.cell events ids2 v r c := by
  unfold EXPAND_EVENTS.cell
  have hdiv : (events.nrow * ids1.length + r) / events.nrow = ids1.length + r / events.nrow := by
    rw [Nat.add_comm, Nat.add_mul_div_left _ _ hR, Nat.add_comm]
  have hmod : (events.nrow * ids1.length + r) % events.nrow = r % events.nrow := by
    rw [Nat.add_comm, Nat.add_mul_mod_self_left]
  rw [hdiv, hmod, List.getElem?_append_right (Nat.le_add_right _ _), Nat.add_sub_cancel_left]

end ExpandAppend

section ClaimAppend

variable {α : Type} [Zero α]

/-- C18: expansion distributes over concatenation of the identifier vectors.  For
every column index, tables returned for `ids1`, `ids2` and `ids1 ++ ids2` have the
same labels and column count, and the rows of the third are the rows of the first
followed by the rows of the second; for a column index that is absent or inside
the template all three calls return; with no identifier the table has no row. -/
theorem EXPAND_EVENTS_append (idcol_ : List Int) (events : NumericMatrix α)
    (ids1 ids2 : List α) (hwf : events.WF) :
    (∀ t1 t2 t, EXPAND_EVENTS idcol_ events ids1 = .ok t1 →
      EXPAND_EVENTS idcol_ events ids2 = .ok t2 →
      EXPAND_EVENTS idcol_ events (ids1 ++ ids2) = .ok t →
      t.dimnames = t1.dimnames ∧ t.dimnames = t2.dimnames ∧
      t.ncol = t1.ncol ∧ t.ncol = t2.ncol ∧ t.nrow = t1.nrow + t2.nrow ∧
      (∀ r c, r < t1.nrow → c < t.ncol → t.get? r c = t1.get? r c) ∧
      (∀ r c, r < t2.nrow → c < t.ncol → t.get? (t1.nrow + r) c = t2.get? r c)) ∧
    (∀ (v : Int) (rn : Option (List String)) (names : List String), idcol_[0]? = some v → events.dimnames = some (rn, some names) →
      (v - 1 < 0 ∨ (0 ≤ v - 1 ∧ v - 1 < events.ncol)) →
      ∃ t1 t2 t, EXPAND_EVENTS idcol_ events ids1 = .ok t1 ∧
        EXPAND_EVENTS idcol_ events ids2 = .ok t2 ∧
        EXPAND_EVENTS idcol_ events (ids1 ++ ids2) = .ok t) ∧
    (∀ t0, EXPAND_EVENTS idcol_ events [] = .ok t0 → t0.nrow = 0) ∧
    (∀ (v : Int) (rn : Option (List String)) (names : List String), idcol_[0]? = some v → events.dimnames = some (rn, some names) →
      ∃ t0, EXPAND_EVENTS idcol_ events [] = .ok t0 ∧ t0.nrow = 0) := by
  refine ⟨fun t1 t2 t h1 h2 h => ?_, fun v rn names hv hdn hcol => ?_, fun t0 h0 => ?_,
    fun v rn names hv hdn => ?_⟩
  · obtain ⟨v, rn, names, hv, hdn, tr, tc, td⟩ := EXPAND_EVENTS_ok_shape idcol_ events _ t h
    obtain ⟨v1, rn1, names1, hv1, hdn1, tr1, tc1, td1⟩ :=
      EXPAND_EVENTS_ok_shape idcol_ events _ t1 h1
    obtain ⟨v2, rn2, names2, hv2, hdn2, tr2, tc2, td2⟩ :=
      EXPAND_EVENTS_ok_shape idcol_ events _ t2 h2
    have ev1 : v1 = v := Option.some.inj (hv1.symm.trans hv)
    have ev2 : v2 = v := Option.some.inj (hv2.symm.trans hv)
    have en1 : names1 = names := by
      have := hdn1.symm.trans hdn
      simp only [Option.some.injEq, Prod.mk.injEq] at this
      exact this.2
    have en2 : names2 = names := by
      have := hdn2.symm.trans hdn
      simp only [Option.some.injEq, Prod.mk.injEq] at this
      exact this.2
    rw [ev1] at tc1 td1
    rw [en1] at td1
    rw [ev2] at tc2 td2
    rw [en2] at td2
    have hrows : t.nrow = t1.nrow + t2.nrow := by
      rw [tr, tr1, tr2, List.length_append, Nat.mul_add]
    refine ⟨td.trans td1.symm, td.trans td2.symm, tc.trans tc1.symm, tc.trans tc2.symm, hrows,
      ?_, ?_⟩
    · intro r c hr hc
      by_cases hcol : v - 1 < 0 ∨ (0 ≤ v - 1 ∧ v - 1 < events.ncol)
      · obtain ⟨a, ha, _, _, _, hcell⟩ :=
          EXPAND_EVENTS_cells idcol_ events (ids1 ++ ids2) v rn names hv hwf hdn hcol
        obtain ⟨a1, ha1, _, _, _, hcell1⟩ :=
          EXPAND_EVENTS_cells idcol_ events ids1 v rn names hv hwf hdn hcol
        have ea : a = t := Except.ok.inj (ha.symm.trans h)
        have ea1 : a1 = t1 := Except.ok.inj (ha1.symm.trans h1)
        subst ea ea1
        rw [hcell r c (by omega) hc, hcell1 r c hr (by omega)]
        exact EXPAND_EVENTS.cell_append_left events ids1 ids2 v r c (by rw [← tr1]; exact hr)
      · exfalso
        have hR : 0 < events.nrow := by
          rcases Nat.eq_zero_or_pos events.nrow with h0 | h0
          · rw [tr1, h0] at hr; simp at hr
          · exact h0
        have hM : 0 < ids1.length := by
          rcases Nat.eq_zero_or_pos ids1.length with h0 | h0
          · rw [tr1, h0] at hr; simp at hr
          · exact h0
        obtain ⟨e, he⟩ := EXPAND_EVENTS_col_out_of_range idcol_ events ids1 v hv (by omega) hR hM
        rw [he] at h1
        cases h1
    · intro r c hr hc
      have hR : 0 < events.nrow := by
        rcases Nat.eq_zero_or_pos events.nrow with h0 | h0
        · rw [tr2, h0] at hr; simp at hr
        · exact h0
      by_cases hcol : v - 1 < 0 ∨ (0 ≤ v - 1 ∧ v - 1 < events.ncol)
      · obtain ⟨a, ha, _, _, _, hcell⟩ :=
          EXPAND_EVENTS_cells idcol_ events (ids1 ++ ids2) v rn names hv hwf hdn hcol
        obtain ⟨a2, ha2, _, _, _, hcell2⟩ :=
          EXPAND_EVENTS_cells idcol_ events ids2 v rn names hv hwf hdn hcol
        have ea : a = t := Except.ok.inj (ha.symm.trans h)
        have ea2 : a2 = t2 := Except.ok.inj (ha2.symm.trans h2)
        subst ea ea2
        rw [hcell (t1.nrow + r) c (by omega) hc, hcell2 r c hr (by omega), tr1]
        exact EXPAND_EVENTS.cell_append_right events ids1 ids2 v r c hR
      · exfalso
        have hM : 0 < ids2.length := by
          rcases Nat.eq_zero_or_pos ids2.length with h0 | h0
          · rw [tr2, h0] at hr; simp at hr
          · exact h0
        obtain ⟨e, he⟩ := EXPAND_EVENTS_col_out_of_range idcol_ events ids2 v hv (by omega) hR hM
        rw [he] at h2
        cases h2
  · obtain ⟨t1, h1, _⟩ := EXPAND_EVENTS_core idcol_ events ids1 v rn names hv hwf hdn hcol
    obtain ⟨t2, h2, _⟩ := EXPAND_EVENTS_core idcol_ events ids2 v rn names hv hwf hdn hcol
    obtain ⟨t, h, _⟩ := EXPAND_EVENTS_core idcol_ events (ids1 ++ ids2) v rn names hv hwf hdn hcol
    exact ⟨t1, t2, t, h1, h2, h⟩
  · obtain ⟨_, _, _, _, _, tr, _⟩ := EXPAND_EVENTS_ok_shape idcol_ events _ t0 h0
    simpa using tr
  · have hrun : ∃ t0, EXPAND_EVENTS idcol_ events [] = .ok t0 := by
      simp [EXPAND_EVENTS, hv, hdn, forLoop]
    obtain ⟨t0, h0⟩ := hrun
    obtain ⟨_, _, _, _, _, tr, _⟩ := EXPAND_EVENTS_ok_shape idcol_ events _ t0 h0
    exact ⟨t0, h0, by simpa using tr⟩

/-- The preceding theorem applied to a template of three rows without identifier
column and the identifier vectors `[101]` and `[102, 103]`. -/
theorem EXPAND_EVENTS_append_witness :
    ∃ t1 t2 t, EXPAND_EVENTS [0] ex_events [101] = .ok t1 ∧
      EXPAND_EVENTS [0] ex_events [102, 103] = .ok t2 ∧
      EXPAND_EVENTS [0] ex_events ([101] ++ [102, 103]) = .ok t :=
  (EXPAND_EVENTS_append [0] ex_events [101] [102, 103] (by decide)).2.1 0 none
    ["time", "amt"] rfl rfl (Or.inl (by decide))

end ClaimAppend

/-! ## `SUPERMATRIX`: nesting -/

section Assoc

variable {α : Type}

theorem blockOffset_zero (a : List (NumericMatrix α)) : blockOffset a 0 = 0 := by
  simp [blockOffset, totalDim, nonEmpty, sumRows]

theorem blockOffset_succ (m : NumericMatrix α) (ms : List (NumericMatrix α)) (k : Nat) :
    blockOffset (m :: ms) (k + 1) = m.nrow + blockOffset ms k := by
  simp [blockOffset, totalDim_cons]

/-- Inside block `i` the arrangement has the entry of matrix `i`. -/
theorem blockEntry_of_block [Zero α] (a : List (NumericMatrix α)) :
    ∀ (i : Nat) (m : NumericMatrix α) (r c : Nat), a[i]? = some m → m.nrow ≠ 0 →
      inRange (blockOffset a i) m.nrow r → inRange (blockOffset a i) m.nrow c →
      blockEntry a r c = m.get? (r - blockOffset a i) (c - blockOffset a i) := by
  induction a with
  | nil => intro i m r c h; simp at h
  | cons m0 ms ih =>
    intro i m r c hm h0 hr hc
    cases i with
    | zero =>
      simp only [List.getElem?_cons_zero, Option.some.injEq] at hm
      subst hm
      simp only [blockOffset_zero, inRange, Nat.zero_le, Nat.zero_add, true_and] at hr hc
      simp [blockEntry, blockOffset_zero, hr, hc]
    | succ k =>
      simp only [List.getElem?_cons_succ] at hm
      rw [blockOffset_succ] at hr hc ⊢
      simp only [inRange] at hr hc
      have h1 : ¬ (r < m0.nrow ∧ c < m0.nrow) := by omega
      have h2 : m0.nrow ≤ r ∧ m0.nrow ≤ c := by omega
      simp only [blockEntry, h1, h2, ↓reduceIte, and_self]
      rw [ih k m (r - m0.nrow) (c - m0.nrow) hm h0 (by simp only [inRange]; omega)
        (by simp only [inRange]; omega)]
      congr 1 <;> omega

/-- Outside every block the arrangement is zero. -/
theorem blockEntry_of_no_block [Zero α] (a : List (NumericMatrix α)) :
    ∀ (r c : Nat), (∀ i m, a[i]? = some m → m.nrow ≠ 0 →
        ¬ (inRange (blockOffset a i) m.nrow r ∧ inRange (blockOffset a i) m.nrow c)) →
      blockEntry a r c = some 0 := by
  induction a with
  | nil => intro r c _; rfl
  | cons m0 ms ih =>
    intro r c hfree
    unfold blockEntry
    by_cases h1 : r < m0.nrow ∧ c < m0.nrow
    · exfalso
      refine hfree 0 m0 (by simp) (by omega) ?_
      simp only [blockOffset_zero, inRange]
      omega
    · rw [if_neg h1]
      by_cases h2 : m0.nrow ≤ r ∧ m0.nrow ≤ c
      · rw [if_pos h2]
        apply ih
        intro k m hm h0 hin
        refine hfree (k + 1) m (by simpa using hm) h0 ?_
        rw [blockOffset_succ]
        simp only [inRange] at hin ⊢
        omega
      · rw [if_neg h2]

/-- The result of `SUPERMATRIX` on a list of square matrices, cell by cell. -/
theorem SUPERMATRIX_entries [Zero α] (a : List (NumericMatrix α)) (keep_names : Bool)
    (hall : ∀ m ∈ a, m.WF ∧ m.nrow = m.ncol) :
    ∃ ret, SUPERMATRIX a keep_names = .ok ret ∧
      ret.nrow = totalDim a ∧ ret.ncol = totalDim a ∧ ret.WF ∧
      (keep_names = true → ret.dimnames = some (some (rowLabels a), some (colLabels a))) ∧
      (keep_names = false → ret.dimnames = none) ∧
      ∀ r c, r < totalDim a → c < totalDim a → ret.get? r c = blockEntry a r c := by
  obtain ⟨ret, hrun, hr, hc, hwf, hl, hn, hcell⟩ := SUPERMATRIX_square_core a keep_names hall
  refine ⟨ret, hrun, hr, hc, hwf, hl, hn, fun r c hrr hcc => ?_⟩
  obtain ⟨g1, g2⟩ := hcell r c hrr hcc
  by_cases hex : ∃ i m, a[i]? = some m ∧ m.nrow ≠ 0 ∧
      inRange (blockOffset a i) m.nrow r ∧ inRange (blockOffset a i) m.nrow c
  · obtain ⟨i, m, hm, h0, hir, hic⟩ := hex
    rw [g1 i m hm h0 hir hic, blockEntry_of_block a i m r c hm h0 hir hic]
  · have hfree : ∀ i m, a[i]? = some m → m.nrow ≠ 0 →
        ¬ (inRange (blockOffset a i) m.nrow r ∧ inRange (blockOffset a i) m.nrow c) :=
      fun i m hm h0 hin => hex ⟨i, m, hm, h0, hin.1, hin.2⟩
    rw [g2 hfree, blockEntry_of_no_block a r c hfree]

theorem totalDim_append (l1 l2 : List (NumericMatrix α)) :
    totalDim (l1 ++ l2) = totalDim l1 + totalDim l2 := by
  induction l1 with
  | nil => simp [totalDim, nonEmpty, sumRows]
  | cons m ms ih => simp only [List.cons_append, totalDim_cons, ih]; omega

/-- The arrangement of a concatenation is the arrangement of the two arrangements. -/
theorem blockEntry_append [Zero α] (l1 l2 : List (NumericMatrix α)) :
    ∀ r c, blockEntry (l1 ++ l2) r c =
      if r < totalDim l1 ∧ c < totalDim l1 then blockEntry l1 r c
      else if totalDim l1 ≤ r ∧ totalDim l1 ≤ c then
        blockEntry l2 (r - totalDim l1) (c - totalDim l1)
      else some 0 := by
  induction l1 with
  | nil =>
    intro r c
    simp [totalDim, nonEmpty, sumRows]
  | cons m ms ih =>
    intro r c
    have eL : blockEntry ((m :: ms) ++ l2) r c =
        (if r < m.nrow ∧ c < m.nrow then m.get? r c
         else if m.nrow ≤ r ∧ m.nrow ≤ c then blockEntry (ms ++ l2) (r - m.nrow) (c - m.nrow)
         else some 0) := rfl
    have eR : blockEntry (m :: ms) r c =
        (if r < m.nrow ∧ c < m.nrow then m.get? r c
         else if m.nrow ≤ r ∧ m.nrow ≤ c then blockEntry ms (r - m.nrow) (c - m.nrow)
         else some 0) := rfl
    rw [eL, eR, ih, totalDim_cons]
    by_cases h1 : r < m.nrow ∧ c < m.nrow
    · have : r < m.nrow + totalDim ms ∧ c < m.nrow + totalDim ms := by omega
      simp only [h1, this, and_self, ↓reduceIte]
    · by_cases h2 : m.nrow ≤ r ∧ m.nrow ≤ c
      · simp only [h1, h2, and_self, ↓reduceIte]
        by_cases h3 : r - m.nrow < totalDim ms ∧ c - m.nrow < totalDim ms
        · have : r < m.nrow + totalDim ms ∧ c < m.nrow + totalDim ms := by omega
          simp only [h3, this, and_self, ↓reduceIte]
        · have h3' : ¬ (r < m.nrow + totalDim ms ∧ c < m.nrow + totalDim ms) := by omega
          by_cases h4 : totalDim ms ≤ r - m.nrow ∧ totalDim ms ≤ c - m.nrow
          · have : m.nrow + totalDim ms ≤ r ∧ m.nrow + totalDim ms ≤ c := by omega
            simp only [h3, h3', h4, this, and_self, ↓reduceIte, Nat.sub_sub]
          · have : ¬ (m.nrow + totalDim ms ≤ r ∧ m.nrow + totalDim ms ≤ c) := by omega
            simp only [h3, h3', h4, this, ↓reduceIte]
      · have h5 : ¬ (m.nrow + totalDim ms ≤ r ∧ m.nrow + totalDim ms ≤ c) := by omega
        simp only [h1, h2, h5, ↓reduceIte]
        split_ifs <;> rfl

end Assoc

section AssocClaim

variable {α : Type}

theorem nonEmpty_append (l1 l2 : List (NumericMatrix α)) :
    nonEmpty (l1 ++ l2) = nonEmpty l1 ++ nonEmpty l2 := by
  simp [nonEmpty]

theorem rowLabels_append (l1 l2 : List (NumericMatrix α)) :
    rowLabels (l1 ++ l2) = rowLabels l1 ++ rowLabels l2 := by
  simp [rowLabels, nonEmpty_append]

theorem colLabels_append (l1 l2 : List (NumericMatrix α)) :
    colLabels (l1 ++ l2) = colLabels l1 ++ colLabels l2 := by
  simp [colLabels, nonEmpty_append]

/-- The labels `SUPERMATRIX` collects from two matrices that carry both label vectors,
each as long as the matrix has rows. -/
theorem labels_pair (r1 r2 : NumericMatrix α) (a1 b1 a2 b2 : List String)
    (h1 : r1.dimnames = some (some a1, some b1)) (h2 : r2.dimnames = some (some a2, some b2))
    (ha1 : a1.length = r1.nrow) (hb1 : b1.length = r1.nrow)
    (ha2 : a2.length = r2.nrow) (hb2 : b2.length = r2.nrow) :
    rowLabels [r1, r2] = a1 ++ a2 ∧ colLabels [r1, r2] = b1 ++ b2 := by
  have e1 : r1.nrow = 0 → a1 = [] ∧ b1 = [] := fun h0 =>
    ⟨List.length_eq_zero.mp (by omega), List.length_eq_zero.mp (by omega)⟩
  have e2 : r2.nrow = 0 → a2 = [] ∧ b2 = [] := fun h0 =>
    ⟨List.length_eq_zero.mp (by omega), List.length_eq_zero.mp (by omega)⟩
  by_cases z1 : r1.nrow = 0 <;> by_cases z2 : r2.nrow = 0
  · simp [rowLabels, colLabels, nonEmpty, z1, z2, (e1 z1).1, (e1 z1).2, (e2 z2).1, (e2 z2).2]
  · simp [rowLabels, colLabels, nonEmpty, z1, z2, (e1 z1).1, (e1 z1).2, rowLabelsOf,
      colLabelsOf, h2]
  · simp [rowLabels, colLabels, nonEmpty, z1, z2, (e2 z2).1, (e2 z2).2, rowLabelsOf,
      colLabelsOf, h1]
  · simp [rowLabels, colLabels, nonEmpty, z1, z2, rowLabelsOf, colLabelsOf, h1, h2]

/-- C17: block-diagonal assembly can be nested.  For lists `L1`, `L2` of square
matrices with consistent labels and either value of `keep_names`, `SUPERMATRIX` of
the two results of `SUPERMATRIX` on `L1` and on `L2` is the result of `SUPERMATRIX` on
`L1 ++ L2`: the same extents, the same entries and the same labels. -/
theorem SUPERMATRIX_append [Zero α] (L1 L2 : List (NumericMatrix α)) (keep_names : Bool)
    (h1 : ∀ m ∈ L1, m.WF ∧ m.nrow = m.ncol ∧ m.LabelsOK)
    (h2 : ∀ m ∈ L2, m.WF ∧ m.nrow = m.ncol ∧ m.LabelsOK) :
    ∃ r1 r2 ret, SUPERMATRIX L1 keep_names = .ok r1 ∧ SUPERMATRIX L2 keep_names = .ok r2 ∧
      SUPERMATRIX (L1 ++ L2) keep_names = .ok ret ∧
      SUPERMATRIX [r1, r2] keep_names = .ok ret ∧
      ret.nrow = totalDim L1 + totalDim L2 ∧ ret.ncol = totalDim L1 + totalDim L2 := by
  obtain ⟨r1, run1, nr1, nc1, wf1, lab1, nolab1, cell1⟩ :=
    SUPERMATRIX_entries L1 keep_names (fun m hm => ⟨(h1 m hm).1, (h1 m hm).2.1⟩)
  obtain ⟨r2, run2, nr2, nc2, wf2, lab2, nolab2, cell2⟩ :=
    SUPERMATRIX_entries L2 keep_names (fun m hm => ⟨(h2 m hm).1, (h2 m hm).2.1⟩)
  obtain ⟨ret, run, nr, nc, wf, lab, nolab, cell⟩ :=
    SUPERMATRIX_entries (L1 ++ L2) keep_names (fun m hm => by
      rcases List.mem_append.mp hm with h | h
      · exact ⟨(h1 m h).1, (h1 m h).2.1⟩
      · exact ⟨(h2 m h).1, (h2 m h).2.1⟩)
  obtain ⟨ret2, runN, nrN, ncN, wfN, labN, nolabN, cellN⟩ :=
    SUPERMATRIX_entries [r1, r2] keep_names (fun m hm => by
      simp only [List.mem_cons, List.mem_singleton, List.not_mem_nil, or_false] at hm
      rcases hm with rfl | rfl
      · exact ⟨wf1, nr1.trans nc1.symm⟩
      · exact ⟨wf2, nr2.trans nc2.symm⟩)
  have hT : totalDim (L1 ++ L2) = totalDim L1 + totalDim L2 := totalDim_append L1 L2
  have hTN : totalDim [r1, r2] = totalDim L1 + totalDim L2 := by
    rw [totalDim_cons, totalDim_cons, nr1, nr2]
    simp [totalDim, nonEmpty, sumRows]
  have heq : ret2 = ret := by
    apply NumericMatrix.eq_of_get? wfN wf
    · rw [nrN, nr, hTN, hT]
    · rw [ncN, nc, hTN, hT]
    · cases keep_names with
      | false => rw [nolabN rfl, nolab rfl]
      | true =>
        rw [labN rfl, lab rfl, rowLabels_append, colLabels_append]
        have hl1 := rowLabels_length L1 (fun m hm => (h1 m hm).2.2)
        have hl2 := rowLabels_length L2 (fun m hm => (h2 m hm).2.2)
        have hc1 := colLabels_length L1 (fun m hm => ⟨(h1 m hm).2.2, (h1 m hm).2.1⟩)
        have hc2 := colLabels_length L2 (fun m hm => ⟨(h2 m hm).2.2, (h2 m hm).2.1⟩)
        obtain ⟨e1, e2⟩ := labels_pair r1 r2 _ _ _ _ (lab1 rfl) (lab2 rfl)
          (by omega) (by omega) (by omega) (by omega)
        rw [e1, e2]
    · intro r c hr hc
      rw [nrN, hTN] at hr
      rw [ncN, hTN] at hc
      rw [cellN r c (by omega) (by omega), cell r c (by omega) (by omega), blockEntry_append]
      have eN : blockEntry [r1, r2] r c =
          (if r < r1.nrow ∧ c < r1.nrow then r1.get? r c
           else if r1.nrow ≤ r ∧ r1.nrow ≤ c then
             (if r - r1.nrow < r2.nrow ∧ c - r1.nrow < r2.nrow then
                r2.get? (r - r1.nrow) (c - r1.nrow)
              else if r2.nrow ≤ r - r1.nrow ∧ r2.nrow ≤ c - r1.nrow then some 0
              else some 0)
           else some 0) := rfl
      rw [eN, nr1, nr2]
      by_cases c1 : r < totalDim L1 ∧ c < totalDim L1
      · simp only [c1, and_self, ↓reduceIte]
        exact cell1 r c c1.1 c1.2
      · by_cases c2 : totalDim L1 ≤ r ∧ totalDim L1 ≤ c
        · have c3 : r - totalDim L1 < totalDim L2 ∧ c - totalDim L1 < totalDim L2 := by omega
          simp only [c1, c2, c3, and_self, ↓reduceIte]
          exact cell2 _ _ c3.1 c3.2
        · simp only [c1, c2, ↓reduceIte]
  rw [heq] at runN
  exact ⟨r1, r2, ret, run1, run2, run, runN, by rw [nr, hT], by rw [nc, hT]⟩

end AssocClaim

/-- The preceding theorem applied to the list of sizes `[2, 3]` followed by the
list of sizes `[0, 1]`, with labels kept. -/
theorem SUPERMATRIX_append_witness :
    ∃ r1 r2 ret, SUPERMATRIX (ex_blocks.take 2) true = .ok r1 ∧
      SUPERMATRIX (ex_blocks.drop 2) true = .ok r2 ∧
      SUPERMATRIX (ex_blocks.take 2 ++ ex_blocks.drop 2) true = .ok ret ∧
      SUPERMATRIX [r1, r2] true = .ok ret ∧
      ret.nrow = totalDim (ex_blocks.take 2) + totalDim (ex_blocks.drop 2) ∧
      ret.ncol = totalDim (ex_blocks.take 2) + totalDim (ex_blocks.drop 2) :=
  SUPERMATRIX_append (ex_blocks.take 2) (ex_blocks.drop 2) true
    (by simp [ex_blocks, NumericMatrix.WF, NumericMatrix.LabelsOK])
    (by simp [ex_blocks, NumericMatrix.WF, NumericMatrix.LabelsOK])

end Mrgsolve
